import Mathlib

/-!
Verification development for the lyric-resolution engine in `main.py` of
`astrbot_plugin_lyricscatcher`.

The Python source is shallowly embedded:

* `parse_lyrics` models `NeteaseLyricsAPI.parse_lyrics` (regex
  `\[\d{2}:\d{2}(:\d{2})?\.?\d*\]` substitution, `str.strip`, drop-empty).
* `calculate_similarity` models `Main.calculate_similarity`, including a
  faithful model of CPython's `difflib.SequenceMatcher.ratio` (junk-free,
  with the `autojunk` popularity heuristic).  Floats are modelled as `ℚ`:
  every value produced here is of the form `2*m/t` with small integers, and
  the comparisons the code performs are exact on them.
* `search_songs` / `get_lyrics` model the two HTTP wrappers.  A remote
  interaction is modelled by a `RemoteOutcome`: an exception raised inside
  the `try` block (network error, timeout, JSON decode failure), a non-200
  status, or a well-typed JSON payload.
* `find_matching_lyric` models the resolution engine.  It returns an
  `Except String` value (a `.error` models an uncaught Python exception,
  e.g. `KeyError` / `IndexError` in the engine body) together with the list
  of remote calls performed, in order.

Unicode caveats, noted where relevant: `Char.toLower` agrees with Python's
`str.lower` on ASCII (CJK characters are fixed points of both); `Char.isDigit`
models `\d` on ASCII digits; `str.strip`'s whitespace set is modelled by the
ASCII whitespace characters.  All concrete inputs used below stay inside the
agreeing fragment.
-/

namespace LyricsPlugin

/-! ## Python string helpers -/

/-- Python `str.split('\n')`: split a character list at every newline,
keeping empty pieces. -/
def splitNl : List Char → List (List Char)
  | [] => [[]]
  | c :: rest =>
    match splitNl rest with
    | [] => [[c]]
    | h :: t => if c = '\n' then [] :: h :: t else (c :: h) :: t

/-- Characters removed by Python `str.strip()` (ASCII whitespace). -/
def isPySpace (c : Char) : Bool :=
  c = ' ' || c = '\t' || c = '\n' || c = '\r' || c = '\x0b' || c = '\x0c'

/-- Python `str.strip()`. -/
def pyStrip (cs : List Char) : List Char :=
  ((cs.dropWhile isPySpace).reverse.dropWhile isPySpace).reverse

/-- Python `str.lower`, character-wise (ASCII-accurate; CJK characters are
fixed points of both this and Python's `lower`). -/
def pyLower (c : Char) : Char := c.toLower

/-- The cleaning done inside `calculate_similarity`:
`str.lower().replace(" ", "")`.  Only U+0020 is removed. -/
def pyClean (s : String) : String :=
  String.mk ((s.data.map pyLower).filter (fun c => c ≠ ' '))

/-! ## LRC parser (`NeteaseLyricsAPI.parse_lyrics`)

The regex `\[\d{2}:\d{2}(:\d{2})?\.?\d*\]` is matched at a position by a
backtracking-free scan: whenever the optional group `(:\d\d)?` or the
optional `\.?` matches but the remainder fails, the alternative without it
fails as well (the next mandatory character would have to be `]`, but the
input continues with `:` resp. `.`), so greedy matching without backtracking
computes exactly the Python match. -/

/-- Consume exactly two ASCII digits (`\d{2}`; `\d` modelled on ASCII). -/
def digits2 : List Char → Option (List Char)
  | c1 :: c2 :: rest => if c1.isDigit && c2.isDigit then some rest else none
  | _ => none

/-- The optional group `(:\d{2})?`: if it matches, consume it, otherwise
leave the input unchanged. -/
def optColonDigits (r : List Char) : List Char :=
  match r with
  | c :: r' =>
    if c = ':' then
      match digits2 r' with
      | some r'' => r''
      | none => r
    else r
  | [] => r

/-- The optional `\.?`. -/
def optDot (r : List Char) : List Char :=
  match r with
  | c :: r' => if c = '.' then r' else r
  | [] => r

/-- Try to match the timestamp regex at the head of the list; on success
return the input after the match. -/
def matchTag : List Char → Option (List Char)
  | [] => none
  | c :: rest =>
    if c = '[' then
      match digits2 rest with
      | none => none
      | some r1 =>
        match r1 with
        | [] => none
        | c1 :: r2 =>
          if c1 = ':' then
            match digits2 r2 with
            | none => none
            | some r3 =>
              match (optDot (optColonDigits r3)).dropWhile Char.isDigit with
              | [] => none
              | c2 :: r7 => if c2 = ']' then some r7 else none
          else none
    else none

/-- Model of `re.sub(pattern, '', line)`: scan left to right, removing non-overlapping
matches, never rescanning produced output.  Fuel-based so that the kernel can
evaluate it; `matchTag` always consumes at least one character, so fuel
`cs.length` is sufficient. -/
def subTagsF : Nat → List Char → List Char
  | 0, cs => cs
  | _ + 1, [] => []
  | fuel + 1, c :: rest =>
    match matchTag (c :: rest) with
    | some r => subTagsF fuel r
    | none => c :: subTagsF fuel rest

def subTags (cs : List Char) : List Char := subTagsF cs.length cs

/-- One line of `parse_lyrics`' loop body: strip timestamps, then `strip()`. -/
def cleanLine (cs : List Char) : List Char := pyStrip (subTags cs)

/-- The collecting loop of `parse_lyrics`: keep the cleaned line iff truthy. -/
def collectLines : List (List Char) → List (List Char)
  | [] => []
  | l :: ls =>
    let c := cleanLine l
    if c = [] then collectLines ls else c :: collectLines ls

/-- Model of `NeteaseLyricsAPI.parse_lyrics`. -/
def parse_lyrics (lyric_text : String) : List String :=
  if lyric_text = "" then []
  else (collectLines (splitNl lyric_text.data)).map String.mk

/-! ## difflib.SequenceMatcher (junk-free, autojunk as in CPython) -/

/-- Number of occurrences of `c` in `b`. -/
def countIn (b : List Char) (c : Char) : Nat := (b.filter (fun x => x = c)).length

/-- CPython autojunk: for `len(b) >= 200`, elements occurring more than
`len(b) // 100 + 1` times are dropped from `b2j`. -/
def isPopular (b : List Char) (c : Char) : Bool :=
  decide (200 ≤ b.length) && decide (b.length / 100 + 1 < countIn b c)

/-- Model of `self.b2j[c]`: the ascending list of positions of `c` in `b`, empty for
popular elements. -/
def b2j (b : List Char) (c : Char) : List Nat :=
  if isPopular b c then []
  else (List.range b.length).filter (fun j => b.getD j ' ' = c)

/-- Model of `self.bjunk.__contains__`: the junk set is empty (`isjunk=None`). -/
def bjunk (_ : Char) : Bool := false

/-- Inner loop of `find_longest_match`: iterate over `b2j[a[i]]`, carrying
the previous row `st` (read-only), accumulating the fresh row `acc` and the
running best block `(besti, bestj, bestsize)`. -/
def innerLoop (st : Nat → Nat) (blo bhi i : Nat) :
    List Nat → (Nat → Nat) → Nat × Nat × Nat → (Nat → Nat) × (Nat × Nat × Nat)
  | [], acc, best => (acc, best)
  | j :: js, acc, best =>
    if j < blo then innerLoop st blo bhi i js acc best
    else if bhi ≤ j then (acc, best)
    else
      let k := (if j = 0 then 0 else st (j - 1)) + 1
      let acc' := fun x => if x = j then k else acc x
      let best' := if best.2.2 < k then (i + 1 - k, (j + 1 - k, k)) else best
      innerLoop st blo bhi i js acc' best'

/-- Outer loop of `find_longest_match` over the rows `range(alo, ahi)`. -/
def mainLoop (b2jm : Char → List Nat) (a : List Char) (blo bhi : Nat) :
    List Nat → (Nat → Nat) → Nat × Nat × Nat → Nat × Nat × Nat
  | [], _, best => best
  | i :: is, j2l, best =>
    let p := innerLoop j2l blo bhi i (b2jm (a.getD i ' ')) (fun _ => 0) best
    mainLoop b2jm a blo bhi is p.1 p.2

/-- First extension loop: extend backwards over non-junk equal elements. -/
def extendBack (a b : List Char) (alo blo : Nat) : Nat → Nat → Nat → Nat × Nat × Nat
  | 0, bj, bs => (0, (bj, bs))
  | bi + 1, bj, bs =>
    if alo < bi + 1 ∧ blo < bj ∧ bjunk (b.getD (bj - 1) ' ') = false ∧
        a.getD bi ' ' = b.getD (bj - 1) ' ' then
      extendBack a b alo blo bi (bj - 1) (bs + 1)
    else (bi + 1, (bj, bs))

/-- Second extension loop: extend forwards over non-junk equal elements.
Fuel-based; called with fuel `ahi - (bi + bs)`, which is exactly the number
of steps after which the `bi + bs < ahi` guard fails. -/
def extendFwdF (a b : List Char) (ahi bhi : Nat) : Nat → Nat → Nat → Nat → Nat × Nat × Nat
  | 0, bi, bj, bs => (bi, (bj, bs))
  | fuel + 1, bi, bj, bs =>
    if bi + bs < ahi ∧ bj + bs < bhi ∧ bjunk (b.getD (bj + bs) ' ') = false ∧
        a.getD (bi + bs) ' ' = b.getD (bj + bs) ' ' then
      extendFwdF a b ahi bhi fuel bi bj (bs + 1)
    else (bi, (bj, bs))

/-- Third extension loop: extend backwards over junk.  `bjunk` is empty, so
the guard never holds; kept for fidelity to the source. -/
def junkBack (a b : List Char) (alo blo : Nat) : Nat → Nat → Nat → Nat × Nat × Nat
  | 0, bj, bs => (0, (bj, bs))
  | bi + 1, bj, bs =>
    if alo < bi + 1 ∧ blo < bj ∧ bjunk (b.getD (bj - 1) ' ') = true ∧
        a.getD bi ' ' = b.getD (bj - 1) ' ' then
      junkBack a b alo blo bi (bj - 1) (bs + 1)
    else (bi + 1, (bj, bs))

/-- Fourth extension loop: extend forwards over junk (never fires). -/
def junkFwdF (a b : List Char) (ahi bhi : Nat) : Nat → Nat → Nat → Nat → Nat × Nat × Nat
  | 0, bi, bj, bs => (bi, (bj, bs))
  | fuel + 1, bi, bj, bs =>
    if bi + bs < ahi ∧ bj + bs < bhi ∧ bjunk (b.getD (bj + bs) ' ') = true ∧
        a.getD (bi + bs) ' ' = b.getD (bj + bs) ' ' then
      junkFwdF a b ahi bhi fuel bi bj (bs + 1)
    else (bi, (bj, bs))

/-- Model of `SequenceMatcher.find_longest_match(alo, ahi, blo, bhi)`. -/
def find_longest_match (a b : List Char) (alo ahi blo bhi : Nat) : Nat × Nat × Nat :=
  let p1 := mainLoop (b2j b) a blo bhi (List.range' alo (ahi - alo)) (fun _ => 0) (alo, (blo, 0))
  let p2 := extendBack a b alo blo p1.1 p1.2.1 p1.2.2
  let p3 := extendFwdF a b ahi bhi (ahi - (p2.1 + p2.2.2)) p2.1 p2.2.1 p2.2.2
  let p4 := junkBack a b alo blo p3.1 p3.2.1 p3.2.2
  junkFwdF a b ahi bhi (ahi - (p4.1 + p4.2.2)) p4.1 p4.2.1 p4.2.2

/-- Total size of all matching blocks of `get_matching_blocks` on the window
`[alo, ahi) × [blo, bhi)` (the queue order and the final merge step of the
CPython implementation do not affect the sum).  Fuel-based: each recursive
window has strictly fewer rows, so fuel `ahi - alo` at the top level is
sufficient at every level. -/
def matchSumF (a b : List Char) : Nat → Nat → Nat → Nat → Nat → Nat
  | 0, _, _, _, _ => 0
  | fuel + 1, alo, ahi, blo, bhi =>
    let p := find_longest_match a b alo ahi blo bhi
    let i := p.1
    let j := p.2.1
    let k := p.2.2
    if k = 0 then 0
    else
      k + (if alo < i ∧ blo < j then matchSumF a b fuel alo i blo j else 0)
        + (if i + k < ahi ∧ j + k < bhi then matchSumF a b fuel (i + k) ahi (j + k) bhi else 0)

/-- Model of `SequenceMatcher(None, a, b).ratio()`, as an exact rational. -/
def ratio (a b : List Char) : ℚ :=
  let m := matchSumF a b a.length 0 a.length 0 b.length
  let t := a.length + b.length
  if t = 0 then 1 else (2 * m : ℚ) / t

/-- Model of `Main.calculate_similarity`. -/
def calculate_similarity (str1 str2 : String) : ℚ :=
  if str1 = "" ∨ str2 = "" then 0
  else
    let c1 := pyClean str1
    let c2 := pyClean str2
    if c1 = "" ∨ c2 = "" then 0
    else ratio c1.data c2.data

/-- A candidate block `(bi, bj, bs)` is valid for the window
`[alo, ahi) × [blo, bhi)`: used to state that every loop of
`find_longest_match` keeps its best block inside the window. -/
def BestValid (alo ahi blo bhi : Nat) (best : Nat × Nat × Nat) : Prop :=
  alo ≤ best.1 ∧ blo ≤ best.2.1 ∧
  (best.2.2 = 0 → best.1 = alo ∧ best.2.1 = blo) ∧
  (1 ≤ best.2.2 → best.1 + best.2.2 ≤ ahi ∧ best.2.1 + best.2.2 ≤ bhi)

/-- Chain lengths computed by the main loop when comparing `s` with itself
over the full window: `selfChain s i j` is the entry stored at key `j` after
processing row `i` (0 when absent). -/
def selfChain (s : List Char) : Nat → Nat → Nat
  | 0, j => if j ∈ b2j s (s.getD 0 ' ') then 1 else 0
  | i + 1, j =>
    if j ∈ b2j s (s.getD (i + 1) ' ') then
      (match j with
       | 0 => 0
       | j' + 1 => selfChain s i j') + 1
    else 0

/-- The previous-row map seen by row `i` of the main loop on a
self-comparison (all zeros for row 0). -/
def selfPrev (s : List Char) (i j : Nat) : Nat :=
  match i with
  | 0 => 0
  | i' + 1 => selfChain s i' j

/-! ## Remote layer (`NeteaseLyricsAPI.search_songs` / `get_lyrics`) -/

/-- One remote HTTP interaction, as seen by the `try` block:
`exn` models an exception raised inside it (network error, timeout, JSON
decode failure), `badStatus` a non-200 response, `ok` a 200 response with a
well-typed JSON payload. -/
inductive RemoteOutcome (α : Type) where
  | exn (msg : String)
  | badStatus (code : Nat)
  | ok (payload : α)
deriving DecidableEq

/-- A song object from the search response: `id` and `name` are optional
fields (`song.get(...)`).  A numeric `id` of `0` is falsy in Python.  Typing
`id` and `name` loses no error path: any JSON `id` value only flows into the
request URL via an f-string (never raising inside the engine), and `name` is
only carried into the result tuple. -/
structure Song where
  id : Option Int
  name : Option String
deriving DecidableEq

/-- One element of the `"songs"` array: a JSON object (on which `.get`
works), or a value of any other JSON type, on which the engine's
`song.get("id")` raises an `AttributeError` outside any `try`. -/
inductive SongItem where
  | obj (song : Song)
  | mal
deriving DecidableEq

/-- The value of the `"songs"` field: a JSON array, or a value of any other
JSON type.  A non-array value is recorded with its Python truthiness: a
falsy one (`0`, `""`, `{}`, `false`, `null`) makes `if not songs` return
`None` benignly, while a truthy one reaches `for song in songs` and raises a
`TypeError`/`AttributeError` inside the engine. -/
inductive SongsField where
  | list (items : List SongItem)
  | mal (truthy : Bool)
deriving DecidableEq

/-- Search payload: `data.get("result", {}).get("songs", [])` — the outer
option is the `"result"` field, the inner one the `"songs"` field.  A
non-dict `"result"` value makes `.get("songs", [])` raise *inside* the
`try` of `search_songs`, which behaves exactly like `RemoteOutcome.exn`
(the wrapper returns `[]`), so it needs no constructor of its own. -/
abbrev SearchJson : Type := Option (Option SongsField)

/-- The value of the `"lyric"` field: a JSON string, or a value of any other
JSON type with its Python truthiness.  A falsy non-string fails the
truthiness check of `get_lyrics` (returning `None`); a truthy non-string
escapes `get_lyrics` and later makes `parse_lyrics`' `lyric_text.split`
raise an `AttributeError` inside the engine, outside any `try`. -/
inductive LyricVal where
  | str (s : String)
  | mal (truthy : Bool)
deriving DecidableEq

/-- The `"lrc"` field of the lyric response: missing/falsy, or a dict whose
`"lyric"` field is optional.  A present-but-falsy `"lrc"` value behaves
exactly like a missing one on every path the engine can take, and a
non-dict truthy `"lrc"` value makes `.get("lyric")` raise *inside* the
`try` of `get_lyrics` — the same behaviour as `RemoteOutcome.exn` — so
both are collapsed. -/
inductive LrcField where
  | absent
  | obj (lyric : Option LyricVal)
deriving DecidableEq

structure LyricJson where
  lrc : LrcField
deriving DecidableEq

/-- Body of the `try` block of `search_songs`; `.error` is a raised
exception, to be caught by the wrapper. -/
def searchSongsRaw : RemoteOutcome SearchJson → Except String SongsField
  | .exn m => .error m
  | .badStatus _ => .ok (SongsField.list [])
  | .ok d => .ok (match d with
      | some (some v) => v
      | _ => SongsField.list [])

/-- Model of `NeteaseLyricsAPI.search_songs`: the `except` clause returns
`[]`. -/
def search_songs (r : RemoteOutcome SearchJson) : SongsField :=
  match searchSongsRaw r with
  | .error _ => SongsField.list []
  | .ok v => v

/-- Python truthiness of the value held by the `"lyric"` field. -/
def lyricValTruthy : LyricVal → Bool
  | .str s => s ≠ ""
  | .mal t => t

/-- The truthiness test `data.get("lrc") and data["lrc"].get("lyric")`. -/
def lyricTruthy (d : LyricJson) : Bool :=
  match d.lrc with
  | .obj (some v) => lyricValTruthy v
  | _ => false

/-- Body of the `try` block of `get_lyrics`. -/
def getLyricsRaw : RemoteOutcome LyricJson → Except String (Option LyricJson)
  | .exn m => .error m
  | .badStatus _ => .ok none
  | .ok d => .ok (if lyricTruthy d then some d else none)

/-- Model of `NeteaseLyricsAPI.get_lyrics`: the `except` clause returns
`None`. -/
def get_lyrics (r : RemoteOutcome LyricJson) : Option LyricJson :=
  match getLyricsRaw r with
  | .error _ => none
  | .ok v => v

/-- The engine's subscripts `lyrics_data["lrc"]["lyric"]`; `.error` models a
`KeyError`. -/
def lrcLyric (d : LyricJson) : Except String LyricVal :=
  match d.lrc with
  | .absent => .error "KeyError: lrc"
  | .obj none => .error "KeyError: lyric"
  | .obj (some v) => .ok v

/-- The engine's `parse_lyrics(lyric_text)` on the fetched `"lyric"` value:
on a string it parses; on a falsy non-string, `if not lyric_text` returns
`[]`; on a truthy non-string, `lyric_text.split('\n')` raises an
`AttributeError` that nothing in the engine catches. -/
def parse_lyricsVal : LyricVal → Except String (List String)
  | .str s => .ok (parse_lyrics s)
  | .mal true => .error "AttributeError: split on non-string lyric"
  | .mal false => .ok []

/-- Python truthiness of the `"songs"` value, as tested by `if not songs`. -/
def songsTruthy : SongsField → Bool
  | .list items => items ≠ []
  | .mal t => t

/-! ## Resolution engine (`Main.find_matching_lyric`) -/

/-- The provider, as a pure environment: the response to the one search
request, and the response to a lyric fetch for each song id. -/
structure Env where
  searchResp : RemoteOutcome SearchJson
  lyricResp : Int → RemoteOutcome LyricJson

/-- Result tuple `(song_name, matched_line, next_line, song_id)`. -/
abbrev MatchRes : Type := String × String × String × Int

deriving instance DecidableEq for Except

/-- A remote call performed during one resolution. -/
inductive RemoteCall where
  | search (keyword : String)
  | fetch (songId : Int)
deriving DecidableEq

/-- The inner matching loop `for i, line in enumerate(lines[:-1])`, walking
`rem` (a suffix of `lines[:-1]`) with `i` the index of its head in `lines`.
`lines.get? (i+1)` models `lines[i + 1]`; a `.error` models an `IndexError`. -/
def scanLines (thr : ℚ) (u : String) (lines : List String) :
    Nat → List String → Option (Except String (String × String))
  | _, [] => none
  | i, line :: rem =>
    if thr ≤ calculate_similarity u line then
      some (match lines.get? (i + 1) with
            | some nxt => .ok (line, nxt)
            | none => .error "IndexError")
    else scanLines thr u lines (i + 1) rem

/-- The full inner loop over `lines[:-1]`. -/
def scanFull (thr : ℚ) (u : String) (lines : List String) :
    Option (Except String (String × String)) :=
  scanLines thr u lines 0 (lines.take (lines.length - 1))

/-- The candidate loop `for song in songs`, also recording the list of song
ids for which a lyric fetch was issued.  A non-object element raises on
`song.get` (no fetch is issued for it). -/
def tryCandidates (thr : ℚ) (u : String) (env : Env) :
    List SongItem → Except String (Option MatchRes) × List Int
  | [] => (.ok none, [])
  | .mal :: _ => (.error "AttributeError: song.get on non-dict element", [])
  | .obj song :: rest =>
    let song_name := song.name.getD "未知歌曲"
    match song.id with
    | none => tryCandidates thr u env rest
    | some sid =>
      if sid = 0 then tryCandidates thr u env rest
      else
        match get_lyrics (env.lyricResp sid) with
        | none =>
          let p := tryCandidates thr u env rest
          (p.1, sid :: p.2)
        | some data =>
          match lrcLyric data with
          | .error e => (.error e, [sid])
          | .ok v =>
            match parse_lyricsVal v with
            | .error e => (.error e, [sid])
            | .ok lines =>
              if lines.length < 2 then
                let p := tryCandidates thr u env rest
                (p.1, sid :: p.2)
              else
                match scanFull thr u lines with
                | none =>
                  let p := tryCandidates thr u env rest
                  (p.1, sid :: p.2)
                | some (.ok (line, nxt)) => (.ok (some (song_name, line, nxt, sid)), [sid])
                | some (.error e) => (.error e, [sid])

/-- Model of `Main.find_matching_lyric`, with its remote-call trace.  `thr`
is `self.config["similarity_threshold"]`; the search limit only affects the
request URL and is absorbed into the environment.  A truthy non-list
`"songs"` value passes `if not songs` and raises on `for song in songs`. -/
def find_matching_lyric (thr : ℚ) (u : String) (env : Env) :
    Except String (Option MatchRes) × List RemoteCall :=
  let songs := search_songs env.searchResp
  if songsTruthy songs then
    match songs with
    | .list items =>
      let p := tryCandidates thr u env items
      (p.1, RemoteCall.search u :: p.2.map RemoteCall.fetch)
    | .mal _ => (.error "TypeError: songs value is not a list", [RemoteCall.search u])
  else (.ok none, [RemoteCall.search u])

/-! ## Spec-side definitions

The following definitions are written from the specification's words (not
from the source); they exist only to state claims that compare the code with
the spec. -/

/-- Modelled from the spec: the Text Normalizer ("removes punctuation (any
character not alphanumeric or whitespace), removes internal whitespace,
case-folds").  Net effect: keep alphanumeric characters, lowercased. -/
def specNormalize (s : String) : String :=
  String.mk ((s.data.filter Char.isAlphanum).map Char.toLower)

/-- Substring test: does `needle` occur contiguously inside `hay`? -/
def hasSub : List Char → List Char → Bool
  | needle, [] => needle.isEmpty
  | needle, c :: t => needle.isPrefixOf (c :: t) || hasSub needle t

/-- Modelled from the spec: the "known metadata prefixes
(author/composer/arranger/producer credit lines)" of §4.1, as the standard
Netease credit-line openers. -/
def specIsCreditLine (l : List Char) : Bool :=
  "作词".data.isPrefixOf l || "作曲".data.isPrefixOf l ||
  "编曲".data.isPrefixOf l || "制作人".data.isPrefixOf l

/-- Modelled from the spec: the number of lines of a raw LRC text that are
non-empty and non-metadata after tag stripping (the `N` of claim C6). -/
def specNonMetaCount (t : String) : Nat :=
  (((splitNl t.data).map cleanLine).filter
    (fun l => decide (l ≠ []) && !specIsCreditLine l)).length

/-- Modelled from the spec: a cache (absent from this source variant) as a
list of entries' ordered line sequences, together with the test "some
entry's lines include the query as a non-last line". -/
def specCacheHasQueryNonLast (cache : List (List String)) (q : String) : Bool :=
  cache.any (fun lines => lines.dropLast.any (fun l => l = q))

/-- The two bracketed time-tag shapes named by the claim: `[mm:ss.xx]`
(`dotted`) and `[mm:ss:xx]` (`coloned`). -/
inductive TimeTag where
  | dotted (m1 m2 s1 s2 f1 f2 : Char)
  | coloned (m1 m2 s1 s2 f1 f2 : Char)

/-- Well-formedness of a time tag: all six payload characters are digits. -/
def TimeTag.wf : TimeTag → Prop
  | .dotted m1 m2 s1 s2 f1 f2 =>
      m1.isDigit = true ∧ m2.isDigit = true ∧ s1.isDigit = true ∧
      s2.isDigit = true ∧ f1.isDigit = true ∧ f2.isDigit = true
  | .coloned m1 m2 s1 s2 f1 f2 =>
      m1.isDigit = true ∧ m2.isDigit = true ∧ s1.isDigit = true ∧
      s2.isDigit = true ∧ f1.isDigit = true ∧ f2.isDigit = true

/-- Rendering of a time tag to text. -/
def TimeTag.render : TimeTag → List Char
  | .dotted m1 m2 s1 s2 f1 f2 =>
      '[' :: m1 :: m2 :: ':' :: s1 :: s2 :: '.' :: f1 :: f2 :: [']']
  | .coloned m1 m2 s1 s2 f1 f2 =>
      '[' :: m1 :: m2 :: ':' :: s1 :: s2 :: ':' :: f1 :: f2 :: [']']

/-! ## Well-shapedness of 200 payloads

These predicates carve out the payloads on which the engine's body can
touch a value of the wrong JSON type outside any `try`. -/

/-- Well-shaped search response: a `"songs"` value the engine will iterate
is a list of JSON objects.  (A *falsy* non-list value is harmless:
`if not songs` returns `None` before iterating.) -/
def searchRespWF : RemoteOutcome SearchJson → Prop
  | .ok (some (some (SongsField.mal t))) => t = false
  | .ok (some (some (SongsField.list items))) => ∀ it ∈ items, it ≠ SongItem.mal
  | _ => True

/-- Well-shaped lyric response: a truthy `"lyric"` value is a string.  (A
*falsy* non-string is harmless: `get_lyrics` returns `None`.) -/
def lyricRespWF : RemoteOutcome LyricJson → Prop
  | .ok d =>
    match d.lrc with
    | LrcField.obj (some (LyricVal.mal t)) => t = false
    | _ => True
  | _ => True

/-! ## Concrete environments used in counterexamples and witnesses -/

/-- An environment whose search returns an empty song list. -/
def envNoSongs : Env :=
  { searchResp := .ok (some (some (SongsField.list []))),
    lyricResp := fun _ => .exn "unused" }

/-- Environment for C2: one candidate song (id 5) whose lyric parses to
`["abcde", "next"]`. -/
def envC2 : Env :=
  { searchResp := .ok (some (some (SongsField.list
      [.obj { id := some 5, name := some "s" }]))),
    lyricResp := fun i =>
      if i = 5 then .ok ⟨.obj (some (.str "[00:01.00]abcde\n[00:02.00]next"))⟩
      else .exn "unexpected fetch" }

/-- Environment for C3: candidate 1's lyric parses to two lines that do not
match the query "hello"; candidate 2's first line is exactly "hello". -/
def envC3 : Env :=
  { searchResp := .ok (some (some (SongsField.list
      [.obj { id := some 1, name := some "song1" },
       .obj { id := some 2, name := some "song2" }]))),
    lyricResp := fun i =>
      if i = 1 then .ok ⟨.obj (some (.str "[00:01.00]aaaa\n[00:02.00]bbbb"))⟩
      else if i = 2 then .ok ⟨.obj (some (.str "[00:01.00]hello\n[00:02.00]world"))⟩
      else .exn "unexpected fetch" }

/-- Environment for C5's witness: the only candidate's lyric parses to a
single line. -/
def envC5 : Env :=
  { searchResp := .ok (some (some (SongsField.list
      [.obj { id := some 7, name := some "only" }]))),
    lyricResp := fun i =>
      if i = 7 then .ok ⟨.obj (some (.str "[00:01.00]lonely line"))⟩
      else .exn "unexpected fetch" }

/-- Environment for C4's counterexample, lyric side: the provider answers
200 with `{"lrc": {"lyric": 123}}` — a truthy non-string `"lyric"`. -/
def envC4Lyric : Env :=
  { searchResp := .ok (some (some (SongsField.list
      [.obj { id := some 9, name := some "s" }]))),
    lyricResp := fun i =>
      if i = 9 then .ok ⟨.obj (some (.mal true))⟩
      else .exn "unexpected fetch" }

/-- Environment for C4's counterexample, search side: the provider answers
200 with `{"result": {"songs": 42}}` — a truthy non-list `"songs"`. -/
def envC4Songs : Env :=
  { searchResp := .ok (some (some (SongsField.mal true))),
    lyricResp := fun _ => .exn "unused" }

/-! ## General lemmas about the LRC parser -/

/-- Successful `digits2` exposes two digit characters. -/
theorem digits2_eq_some {l r : List Char} (h : digits2 l = some r) :
    ∃ c1 c2, l = c1 :: c2 :: r ∧ c1.isDigit = true ∧ c2.isDigit = true := by
  match l with
  | [] => cases h
  | [c] => cases h
  | c1 :: c2 :: rest =>
    by_cases hd : (c1.isDigit && c2.isDigit) = true
    · rw [digits2, if_pos hd] at h
      cases h
      rcases Bool.and_eq_true .. |>.mp hd with ⟨h1, h2⟩
      exact ⟨c1, c2, rfl, h1, h2⟩
    · rw [digits2, if_neg hd] at h
      cases h

/-- Direct computation rule for `digits2`. -/
theorem digits2_cons {c1 c2 : Char} (h1 : c1.isDigit = true) (h2 : c2.isDigit = true)
    (r : List Char) : digits2 (c1 :: c2 :: r) = some r := by
  simp [digits2, h1, h2]

theorem dropWhile_length_le (p : Char → Bool) :
    ∀ l : List Char, (l.dropWhile p).length ≤ l.length := by
  intro l
  induction l with
  | nil => exact Nat.le_refl _
  | cons c rest ih =>
    rw [List.dropWhile_cons]
    by_cases h : p c = true
    · simp only [h, if_true]
      exact Nat.le_trans ih (Nat.le_succ _)
    · simp [h]

theorem optColonDigits_length (r : List Char) :
    (optColonDigits r).length ≤ r.length := by
  match r with
  | [] => exact Nat.le_refl _
  | c :: r' =>
    by_cases hc : c = ':'
    · rw [optColonDigits, if_pos hc]
      cases hd : digits2 r' with
      | none => exact Nat.le_refl _
      | some r'' =>
        rcases digits2_eq_some hd with ⟨d1, d2, heq, -, -⟩
        simp [heq]
        omega
    · rw [optColonDigits, if_neg hc]

theorem optDot_length (r : List Char) : (optDot r).length ≤ r.length := by
  match r with
  | [] => exact Nat.le_refl _
  | c :: r' =>
    by_cases hc : c = '.'
    · rw [optDot, if_pos hc]; simp
    · rw [optDot, if_neg hc]

/-- A successful tag match consumes at least one character. -/
theorem matchTag_length : ∀ {cs r : List Char}, matchTag cs = some r → r.length < cs.length := by
  intro cs r h
  match cs with
  | [] => cases h
  | c :: rest =>
    rw [matchTag] at h
    split_ifs at h
    split at h
    · cases h
    · rename_i r1 h1
      split at h
      · cases h
      · rename_i c1 r2
        split_ifs at h
        split at h
        · cases h
        · rename_i r3 h2
          split at h
          · cases h
          · rename_i c2 r7 h7
            split_ifs at h
            cases h
            have h6 : ((optDot (optColonDigits r3)).dropWhile Char.isDigit).length ≤ r3.length :=
              Nat.le_trans (dropWhile_length_le _ _)
                (Nat.le_trans (optDot_length _) (optColonDigits_length _))
            rw [h7] at h6
            rcases digits2_eq_some h1 with ⟨d1, d2, hrest, -, -⟩
            rcases digits2_eq_some h2 with ⟨e1, e2, hr2, -, -⟩
            subst hrest
            subst hr2
            simp at h6 ⊢
            omega

/-- Fuel-irrelevance of `subTagsF`: any fuel of at least the input length
computes the same result. -/
theorem subTagsF_fuel : ∀ (f1 f2 : Nat) (cs : List Char),
    cs.length ≤ f1 → cs.length ≤ f2 → subTagsF f1 cs = subTagsF f2 cs := by
  intro f1
  induction f1 with
  | zero =>
    intro f2 cs h1 _
    have : cs = [] := List.length_eq_zero.mp (Nat.le_zero.mp h1)
    subst this
    cases f2 <;> rfl
  | succ f ih =>
    intro f2 cs h1 h2
    match cs with
    | [] => cases f2 <;> rfl
    | c :: rest =>
      match f2, h2 with
      | f2' + 1, h2 =>
        show subTagsF (f + 1) (c :: rest) = subTagsF (f2' + 1) (c :: rest)
        rw [subTagsF, subTagsF]
        cases hm : matchTag (c :: rest) with
        | some r =>
          have hlen := matchTag_length hm
          simp only [List.length_cons] at h1 h2 hlen
          exact ih f2' r (by omega) (by omega)
        | none =>
          simp only [List.length_cons] at h1 h2
          rw [ih f2' rest (by omega) (by omega)]

/-- Computation rule for `subTags` when a tag matches at the head. -/
theorem subTags_of_match {c : Char} {rest r : List Char}
    (h : matchTag (c :: rest) = some r) : subTags (c :: rest) = subTags r := by
  have hlen := matchTag_length h
  simp only [List.length_cons] at hlen
  show subTagsF (c :: rest).length (c :: rest) = subTagsF r.length r
  simp only [List.length_cons, subTagsF, h]
  exact subTagsF_fuel rest.length r.length r (by omega) (Nat.le_refl _)

/-- Computation rule for `subTags` when no tag matches at the head. -/
theorem subTags_of_none {c : Char} {rest : List Char}
    (h : matchTag (c :: rest) = none) : subTags (c :: rest) = c :: subTags rest := by
  show subTagsF (c :: rest).length (c :: rest) = c :: subTagsF rest.length rest
  simp only [List.length_cons, subTagsF, h]

/-- A position not starting with `[` starts no tag. -/
theorem matchTag_of_ne {c : Char} (rest : List Char) (hc : c ≠ '[') :
    matchTag (c :: rest) = none := by
  rw [matchTag, if_neg hc]

/-- On bracket-free text, tag substitution is the identity. -/
theorem subTags_no_bracket : ∀ (cs : List Char), '[' ∉ cs → subTags cs = cs := by
  intro cs h
  induction cs with
  | nil => rfl
  | cons c rest ih =>
    have hc : c ≠ '[' := fun hcc => h (hcc ▸ List.mem_cons_self c rest)
    rw [subTags_of_none (matchTag_of_ne rest hc),
      ih (fun hmem => h (List.mem_cons_of_mem c hmem))]

/-- A well-formed rendered tag is matched exactly, leaving the remainder. -/
theorem matchTag_render (t : TimeTag) (hwf : t.wf) (rest : List Char) :
    matchTag (t.render ++ rest) = some rest := by
  have hrb : Char.isDigit ']' = false := by decide
  cases t with
  | dotted m1 m2 s1 s2 f1 f2 =>
    rcases hwf with ⟨h1, h2, h3, h4, h5, h6⟩
    show matchTag ('[' :: m1 :: m2 :: ':' :: s1 :: s2 :: '.' :: f1 :: f2 :: ']' :: rest) = some rest
    have hocd : optColonDigits ('.' :: f1 :: f2 :: ']' :: rest) =
        '.' :: f1 :: f2 :: ']' :: rest := by
      rw [optColonDigits, if_neg (by decide)]
    have hod : optDot ('.' :: f1 :: f2 :: ']' :: rest) = f1 :: f2 :: ']' :: rest := by
      rw [optDot, if_pos rfl]
    simp [matchTag, digits2_cons h1 h2, digits2_cons h3 h4, hocd, hod,
      List.dropWhile_cons, h5, h6, hrb]
  | coloned m1 m2 s1 s2 f1 f2 =>
    rcases hwf with ⟨h1, h2, h3, h4, h5, h6⟩
    show matchTag ('[' :: m1 :: m2 :: ':' :: s1 :: s2 :: ':' :: f1 :: f2 :: ']' :: rest) = some rest
    have hocd : optColonDigits (':' :: f1 :: f2 :: ']' :: rest) = ']' :: rest := by
      rw [optColonDigits, if_pos rfl, digits2_cons h5 h6]
    have hod : optDot (']' :: rest) = ']' :: rest := by
      rw [optDot, if_neg (by decide)]
    simp [matchTag, digits2_cons h1 h2, digits2_cons h3 h4, hocd, hod,
      List.dropWhile_cons, hrb]

/-- All leading well-formed tags are stripped, and bracket-free text after
them is untouched. -/
theorem subTags_renders : ∀ (tags : List TimeTag) (txt : List Char),
    (∀ t ∈ tags, t.wf) → '[' ∉ txt →
    subTags ((tags.map TimeTag.render).join ++ txt) = txt := by
  intro tags
  induction tags with
  | nil =>
    intro txt _ htxt
    simpa using subTags_no_bracket txt htxt
  | cons t ts ih =>
    intro txt hwf htxt
    have hr : (((t :: ts).map TimeTag.render).join ++ txt) =
        t.render ++ ((ts.map TimeTag.render).join ++ txt) := by
      simp [List.append_assoc]
    rw [hr]
    have hmt := matchTag_render t (hwf t (List.mem_cons_self t ts))
      ((ts.map TimeTag.render).join ++ txt)
    have hne : ∃ c rest, t.render ++ ((ts.map TimeTag.render).join ++ txt) = c :: rest := by
      cases t <;> exact ⟨'[', _, rfl⟩
    rcases hne with ⟨c, rest, hcr⟩
    rw [hcr]
    rw [hcr] at hmt
    rw [subTags_of_match hmt]
    exact ih txt (fun x hx => hwf x (List.mem_cons_of_mem t hx)) htxt

/-- The collecting loop is a filter of the cleaned lines. -/
theorem collectLines_eq (ls : List (List Char)) :
    collectLines ls = (ls.map cleanLine).filter (fun l => decide (l ≠ [])) := by
  induction ls with
  | nil => rfl
  | cons l ls ih =>
    by_cases h : cleanLine l = []
    · simp [collectLines, h, ih]
    · simp [collectLines, h, ih]

/-! ## Validity of `find_longest_match` blocks

`BestValid` records that a candidate block lies inside the current window;
it is preserved by every loop of `find_longest_match`. -/

theorem innerLoop_valid (alo ahi blo bhi : Nat) (st : Nat → Nat) (i : Nat)
    (hialo : alo ≤ i) (hiahi : i < ahi)
    (hst : ∀ x, st x = 0 ∨ (st x + alo ≤ i ∧ st x + blo ≤ x + 1)) :
    ∀ (js : List Nat) (acc : Nat → Nat) (best : Nat × Nat × Nat),
      (∀ x, acc x = 0 ∨ (acc x + alo ≤ i + 1 ∧ acc x + blo ≤ x + 1)) →
      BestValid alo ahi blo bhi best →
      (∀ x, (innerLoop st blo bhi i js acc best).1 x = 0 ∨
            ((innerLoop st blo bhi i js acc best).1 x + alo ≤ i + 1 ∧
             (innerLoop st blo bhi i js acc best).1 x + blo ≤ x + 1)) ∧
      BestValid alo ahi blo bhi (innerLoop st blo bhi i js acc best).2 := by
  intro js
  induction js with
  | nil => intro acc best hacc hbest; exact ⟨hacc, hbest⟩
  | cons j js ih =>
    intro acc best hacc hbest
    by_cases h1 : j < blo
    · rw [innerLoop, if_pos h1]
      exact ih acc best hacc hbest
    · by_cases h2 : bhi ≤ j
      · rw [innerLoop, if_neg h1, if_pos h2]
        exact ⟨hacc, hbest⟩
      · rw [innerLoop, if_neg h1, if_neg h2]
        have hkb : (if j = 0 then 0 else st (j - 1)) + 1 + alo ≤ i + 1 ∧
            (if j = 0 then 0 else st (j - 1)) + 1 + blo ≤ j + 1 := by
          by_cases hj : j = 0
          · rw [if_pos hj]
            omega
          · rw [if_neg hj]
            rcases hst (j - 1) with hz | ⟨hb1, hb2⟩
            · rw [hz]
              omega
            · omega
        refine ih _ _ ?_ ?_
        · intro x
          by_cases hx : x = j
          · subst hx
            rw [if_pos rfl]
            exact Or.inr hkb
          · rw [if_neg hx]
            exact hacc x
        · by_cases hup : best.2.2 < (if j = 0 then 0 else st (j - 1)) + 1
          · rw [if_pos hup]
            rcases hkb with ⟨hkb1, hkb2⟩
            refine ⟨?_, ?_, fun hz => absurd hz (by dsimp only; omega),
              fun _ => ⟨?_, ?_⟩⟩ <;> (dsimp only; omega)
          · rw [if_neg hup]
            exact hbest

theorem mainLoop_valid (b2jm : Char → List Nat) (a : List Char) (alo ahi blo bhi : Nat) :
    ∀ (cnt i0 : Nat) (j2l : Nat → Nat) (best : Nat × Nat × Nat),
      alo ≤ i0 → i0 + cnt = ahi →
      (∀ x, j2l x = 0 ∨ (j2l x + alo ≤ i0 ∧ j2l x + blo ≤ x + 1)) →
      BestValid alo ahi blo bhi best →
      BestValid alo ahi blo bhi
        (mainLoop b2jm a blo bhi (List.range' i0 cnt) j2l best) := by
  intro cnt
  induction cnt with
  | zero => intro i0 j2l best _ _ _ hbest; exact hbest
  | succ n ih =>
    intro i0 j2l best h1 h2 hj2l hbest
    rw [List.range'_succ, mainLoop]
    have hlt : i0 < ahi := by omega
    have hi := innerLoop_valid alo ahi blo bhi j2l i0 h1 hlt hj2l
      (b2jm (a.getD i0 ' ')) (fun _ => 0) best (fun x => Or.inl rfl) hbest
    refine ih (i0 + 1) _ _ (by omega) (by omega) ?_ hi.2
    intro x
    rcases hi.1 x with hz | ⟨hb1, hb2⟩
    · exact Or.inl hz
    · exact Or.inr ⟨by omega, hb2⟩

theorem extendBack_valid (a b : List Char) (alo ahi blo bhi : Nat) :
    ∀ (bi bj bs : Nat), BestValid alo ahi blo bhi (bi, (bj, bs)) →
      BestValid alo ahi blo bhi (extendBack a b alo blo bi bj bs) := by
  intro bi
  induction bi with
  | zero => intro bj bs h; exact h
  | succ bi' ih =>
    intro bj bs h
    rw [extendBack]
    split_ifs with hg
    · rcases hg with ⟨hg1, hg2, -, -⟩
      rcases h with ⟨ha, hb, hz, hs⟩
      dsimp only at ha hb hz hs
      have hsum : bi' + 1 + bs ≤ ahi ∧ bj + bs ≤ bhi := by
        by_cases hbs : bs = 0
        · subst hbs
          rcases hz rfl with ⟨hz1, hz2⟩
          omega
        · exact hs (by omega)
      refine ih (bj - 1) (bs + 1) ⟨?_, ?_, fun hz2 => absurd hz2 (by dsimp only; omega),
        fun _ => ⟨?_, ?_⟩⟩ <;> (dsimp only; omega)
    · exact h

theorem extendFwdF_valid (a b : List Char) (alo ahi blo bhi : Nat) :
    ∀ (fuel bi bj bs : Nat), BestValid alo ahi blo bhi (bi, (bj, bs)) →
      BestValid alo ahi blo bhi (extendFwdF a b ahi bhi fuel bi bj bs) := by
  intro fuel
  induction fuel with
  | zero => intro bi bj bs h; exact h
  | succ f ih =>
    intro bi bj bs h
    rw [extendFwdF]
    split_ifs with hg
    · rcases hg with ⟨hg1, hg2, -, -⟩
      rcases h with ⟨ha, hb, hz, hs⟩
      dsimp only at ha hb hz hs
      refine ih bi bj (bs + 1) ⟨?_, ?_, fun hz2 => absurd hz2 (by dsimp only; omega),
        fun _ => ⟨?_, ?_⟩⟩ <;> (dsimp only; omega)
    · exact h

theorem junkBack_id (a b : List Char) (alo blo : Nat) :
    ∀ (bi bj bs : Nat), junkBack a b alo blo bi bj bs = (bi, (bj, bs)) := by
  intro bi bj bs
  cases bi with
  | zero => rfl
  | succ bi' => simp [junkBack, bjunk]

theorem junkFwdF_id (a b : List Char) (ahi bhi : Nat) :
    ∀ (fuel bi bj bs : Nat), junkFwdF a b ahi bhi fuel bi bj bs = (bi, (bj, bs)) := by
  intro fuel bi bj bs
  cases fuel with
  | zero => rfl
  | succ f => simp [junkFwdF, bjunk]

theorem extendBack_valid' (a b : List Char) (alo ahi blo bhi : Nat)
    (p : Nat × Nat × Nat) (h : BestValid alo ahi blo bhi p) :
    BestValid alo ahi blo bhi (extendBack a b alo blo p.1 p.2.1 p.2.2) := by
  rcases p with ⟨bi, bj, bs⟩
  exact extendBack_valid a b alo ahi blo bhi bi bj bs h

theorem extendFwdF_valid' (a b : List Char) (alo ahi blo bhi fuel : Nat)
    (p : Nat × Nat × Nat) (h : BestValid alo ahi blo bhi p) :
    BestValid alo ahi blo bhi (extendFwdF a b ahi bhi fuel p.1 p.2.1 p.2.2) := by
  rcases p with ⟨bi, bj, bs⟩
  exact extendFwdF_valid a b alo ahi blo bhi fuel bi bj bs h

/-- Every block returned by `find_longest_match` fits in its window. -/
theorem flm_valid (a b : List Char) (alo ahi blo bhi : Nat) :
    BestValid alo ahi blo bhi (find_longest_match a b alo ahi blo bhi) := by
  have hinit : BestValid alo ahi blo bhi (alo, (blo, 0)) :=
    ⟨Nat.le_refl _, Nat.le_refl _, fun _ => ⟨rfl, rfl⟩, fun h => by cases h⟩
  have hmain : BestValid alo ahi blo bhi
      (mainLoop (b2j b) a blo bhi (List.range' alo (ahi - alo)) (fun _ => 0) (alo, (blo, 0))) := by
    by_cases halo : alo ≤ ahi
    · exact mainLoop_valid (b2j b) a alo ahi blo bhi (ahi - alo) alo (fun _ => 0)
        (alo, (blo, 0)) (Nat.le_refl _) (by omega) (fun x => Or.inl rfl) hinit
    · rw [show ahi - alo = 0 by omega]
      exact hinit
  simp only [find_longest_match, junkBack_id, junkFwdF_id, Prod.mk.eta]
  exact extendFwdF_valid' a b alo ahi blo bhi _ _
    (extendBack_valid' a b alo ahi blo bhi _ hmain)

/-! ## Bounds on the total matched size -/

theorem matchSumF_le_a (a b : List Char) :
    ∀ (fuel alo ahi blo bhi : Nat),
      matchSumF a b fuel alo ahi blo bhi ≤ ahi - alo := by
  intro fuel
  induction fuel with
  | zero => intro alo ahi blo bhi; rw [matchSumF]; omega
  | succ f ih =>
    intro alo ahi blo bhi
    rw [matchSumF]
    have hv := flm_valid a b alo ahi blo bhi
    rcases hp : find_longest_match a b alo ahi blo bhi with ⟨i, j, k⟩
    rw [hp] at hv
    rcases hv with ⟨hai, hbj, -, hsum⟩
    simp only at hai hbj hsum ⊢
    by_cases hk : k = 0
    · rw [if_pos hk]; omega
    · rw [if_neg hk]
      rcases hsum (by omega) with ⟨hsa, hsb⟩
      have hL : (if alo < i ∧ blo < j then matchSumF a b f alo i blo j else 0) ≤ i - alo := by
        split
        · exact ih alo i blo j
        · omega
      have hR : (if i + k < ahi ∧ j + k < bhi then matchSumF a b f (i + k) ahi (j + k) bhi else 0) ≤
          ahi - (i + k) := by
        split
        · exact ih (i + k) ahi (j + k) bhi
        · omega
      omega

theorem matchSumF_le_b (a b : List Char) :
    ∀ (fuel alo ahi blo bhi : Nat),
      matchSumF a b fuel alo ahi blo bhi ≤ bhi - blo := by
  intro fuel
  induction fuel with
  | zero => intro alo ahi blo bhi; rw [matchSumF]; omega
  | succ f ih =>
    intro alo ahi blo bhi
    rw [matchSumF]
    have hv := flm_valid a b alo ahi blo bhi
    rcases hp : find_longest_match a b alo ahi blo bhi with ⟨i, j, k⟩
    rw [hp] at hv
    rcases hv with ⟨hai, hbj, -, hsum⟩
    simp only at hai hbj hsum ⊢
    by_cases hk : k = 0
    · rw [if_pos hk]; omega
    · rw [if_neg hk]
      rcases hsum (by omega) with ⟨hsa, hsb⟩
      have hL : (if alo < i ∧ blo < j then matchSumF a b f alo i blo j else 0) ≤ j - blo := by
        split
        · exact ih alo i blo j
        · omega
      have hR : (if i + k < ahi ∧ j + k < bhi then matchSumF a b f (i + k) ahi (j + k) bhi else 0) ≤
          bhi - (j + k) := by
        split
        · exact ih (i + k) ahi (j + k) bhi
        · omega
      omega

/-- The similarity ratio always lies in `[0, 1]`. -/
theorem ratio_mem_unit (a b : List Char) : 0 ≤ ratio a b ∧ ratio a b ≤ 1 := by
  unfold ratio
  by_cases ht : a.length + b.length = 0
  · rw [if_pos ht]
    norm_num
  · rw [if_neg ht]
    have hma := matchSumF_le_a a b a.length 0 a.length 0 b.length
    have hmb := matchSumF_le_b a b a.length 0 a.length 0 b.length
    have h2m : 2 * matchSumF a b a.length 0 a.length 0 b.length ≤ a.length + b.length := by
      omega
    have htpos : (0 : ℚ) < ((a.length + b.length : Nat) : ℚ) := by
      have : 0 < a.length + b.length := by omega
      exact_mod_cast this
    constructor
    · positivity
    · rw [div_le_one htpos]
      exact_mod_cast h2m

/-! ## Self-comparison: `find_longest_match s s` finds the whole string

The main loop's best block on a self-comparison is always diagonal: an
off-diagonal chain ending at `(i, j)` is dominated by the diagonal chain at
`min i j`, which the ascending iteration order reaches first (strict
improvement is required for an update).  The extension loops then grow a
diagonal block to the whole window. -/

theorem b2j_mem {b : List Char} {c : Char} {j : Nat} :
    j ∈ b2j b c ↔ isPopular b c = false ∧ j < b.length ∧ b.getD j ' ' = c := by
  unfold b2j
  by_cases hp : isPopular b c
  · simp [hp]
  · simp [hp, List.mem_filter, List.mem_range]

theorem b2j_pairwise (b : List Char) (c : Char) : (b2j b c).Pairwise (· < ·) := by
  unfold b2j
  split
  · exact List.Pairwise.nil
  · exact (List.pairwise_lt_range _).sublist (List.filter_sublist _)

theorem selfChain_eq_zero {s : List Char} {i j : Nat}
    (h : j ∉ b2j s (s.getD i ' ')) : selfChain s i j = 0 := by
  cases i with
  | zero => simp only [selfChain, if_neg h]
  | succ i' => simp only [selfChain, if_neg h]

theorem selfChain_eq_of_mem {s : List Char} {i j : Nat}
    (h : j ∈ b2j s (s.getD i ' ')) :
    selfChain s i j = (if j = 0 then 0 else selfPrev s i (j - 1)) + 1 := by
  cases i with
  | zero =>
    simp only [selfChain, if_pos h]
    cases j with
    | zero => rfl
    | succ j' => rfl
  | succ i' =>
    simp only [selfChain, if_pos h]
    cases j with
    | zero => rfl
    | succ j' => rfl

/-- A chain ending at `(i, j)` also exists on the diagonal at column `j`. -/
theorem selfCond_diag_col {s : List Char} {i j : Nat}
    (h : j ∈ b2j s (s.getD i ' ')) : j ∈ b2j s (s.getD j ' ') := by
  rcases b2j_mem.mp h with ⟨hp, hj, hc⟩
  refine b2j_mem.mpr ⟨?_, hj, rfl⟩
  rw [hc]
  exact hp

/-- A chain ending at `(i, j)` also exists on the diagonal at row `i`,
provided `i` is inside the string. -/
theorem selfCond_diag_row {s : List Char} {i j : Nat} (hi : i < s.length)
    (h : j ∈ b2j s (s.getD i ' ')) : i ∈ b2j s (s.getD i ' ') :=
  b2j_mem.mpr ⟨(b2j_mem.mp h).1, hi, rfl⟩

/-- Off-diagonal chains below the diagonal are dominated by the diagonal
chain at their column. -/
theorem selfChain_le_diag_left (s : List Char) :
    ∀ (i j : Nat), j ≤ i → selfChain s i j ≤ selfChain s j j := by
  intro i
  induction i with
  | zero =>
    intro j hj
    have : j = 0 := by omega
    subst this
    exact Nat.le_refl _
  | succ i' ih =>
    intro j hj
    by_cases hji : j = i' + 1
    · subst hji
      exact Nat.le_refl _
    · have hj' : j ≤ i' := by omega
      by_cases hmem : j ∈ b2j s (s.getD (i' + 1) ' ')
      · have hd : j ∈ b2j s (s.getD j ' ') := selfCond_diag_col hmem
        cases j with
        | zero =>
          rw [selfChain_eq_of_mem hmem, selfChain_eq_of_mem hd]
          simp
        | succ j' =>
          rw [selfChain_eq_of_mem hmem, selfChain_eq_of_mem hd,
            if_neg (Nat.succ_ne_zero j'), if_neg (Nat.succ_ne_zero j')]
          show selfChain s i' j' + 1 ≤ selfChain s j' j' + 1
          exact Nat.succ_le_succ (ih j' (by omega))
      · rw [selfChain_eq_zero hmem]
        exact Nat.zero_le _

/-- Off-diagonal chains beyond the diagonal are dominated by the diagonal
chain at their row. -/
theorem selfChain_le_diag_right (s : List Char) :
    ∀ (i j : Nat), i ≤ j → selfChain s i j ≤ selfChain s i i := by
  intro i
  induction i with
  | zero =>
    intro j hj
    by_cases hmem : j ∈ b2j s (s.getD 0 ' ')
    · rcases b2j_mem.mp hmem with ⟨hp, hjlen, hc⟩
      have h0 : (0 : Nat) ∈ b2j s (s.getD 0 ' ') := b2j_mem.mpr ⟨hp, by omega, rfl⟩
      rw [selfChain_eq_of_mem hmem, selfChain_eq_of_mem h0, if_pos rfl]
      cases j with
      | zero => rw [if_pos rfl]
      | succ j' =>
        rw [if_neg (Nat.succ_ne_zero j')]
        show selfPrev s 0 j' + 1 ≤ 0 + 1
        exact Nat.le_refl _
    · rw [selfChain_eq_zero hmem]
      exact Nat.zero_le _
  | succ i' ih =>
    intro j hj
    by_cases hmem : j ∈ b2j s (s.getD (i' + 1) ' ')
    · cases j with
      | zero => omega
      | succ j' =>
        have hdiag : (i' + 1) ∈ b2j s (s.getD (i' + 1) ' ') := by
          rcases b2j_mem.mp hmem with ⟨hp, hjlen, -⟩
          exact b2j_mem.mpr ⟨hp, by omega, rfl⟩
        rw [selfChain_eq_of_mem hmem, selfChain_eq_of_mem hdiag,
          if_neg (Nat.succ_ne_zero j'), if_neg (Nat.succ_ne_zero i')]
        show selfChain s i' j' + 1 ≤ selfChain s i' i' + 1
        exact Nat.succ_le_succ (ih j' (by omega))
    · rw [selfChain_eq_zero hmem]
      exact Nat.zero_le _

/-- One unfolding step of the inner loop at an in-window column. -/
theorem innerLoop_cons_step (st : Nat → Nat) (bhi i j : Nat) (js : List Nat)
    (acc : Nat → Nat) (bi bj bs : Nat) (hj : j < bhi) :
    innerLoop st 0 bhi i (j :: js) acc (bi, (bj, bs)) =
      innerLoop st 0 bhi i js
        (fun x => if x = j then (if j = 0 then 0 else st (j - 1)) + 1 else acc x)
        (if bs < (if j = 0 then 0 else st (j - 1)) + 1 then
          (i + 1 - ((if j = 0 then 0 else st (j - 1)) + 1),
           (j + 1 - ((if j = 0 then 0 else st (j - 1)) + 1),
            (if j = 0 then 0 else st (j - 1)) + 1))
         else (bi, (bj, bs))) := by
  rw [innerLoop, if_neg (Nat.not_lt_zero j), if_neg (by omega : ¬ bhi ≤ j)]

/-- On a self-comparison the inner loop keeps its best block diagonal,
fills the fresh row with the chain values, and ends with a best size
dominating every diagonal chain up to the current row. -/
theorem innerLoop_self (s : List Char) (i : Nat) (hin : i < s.length)
    (st : Nat → Nat) (hst : ∀ x, st x = selfPrev s i x) :
    ∀ (js : List Nat) (acc : Nat → Nat) (bi bs : Nat),
      (∀ j ∈ js, j ∈ b2j s (s.getD i ' ')) →
      List.Pairwise (· < ·) js →
      (i ∈ js ∨ selfChain s i i ≤ bs) →
      (∀ t, t < i → selfChain s t t ≤ bs) →
      (∀ x, x ∈ js → acc x = 0) →
      (∀ x, x ∈ b2j s (s.getD i ' ') → x ∉ js → acc x = selfChain s i x) →
      (∀ x, x ∉ b2j s (s.getD i ' ') → acc x = 0) →
      ∃ bi' bs',
        (innerLoop st 0 s.length i js acc (bi, (bi, bs))).2 = (bi', (bi', bs')) ∧
        (∀ x, (innerLoop st 0 s.length i js acc (bi, (bi, bs))).1 x = selfChain s i x) ∧
        bs ≤ bs' ∧ (∀ t, t ≤ i → selfChain s t t ≤ bs') := by
  intro js
  induction js with
  | nil =>
    intro acc bi bs hjs hpw hd hlt h1 h2 h3
    simp only [innerLoop]
    refine ⟨bi, bs, rfl, ?_, Nat.le_refl _, ?_⟩
    · intro x
      by_cases hx : x ∈ b2j s (s.getD i ' ')
      · exact h2 x hx (List.not_mem_nil x)
      · rw [h3 x hx, selfChain_eq_zero hx]
    · intro t ht
      rcases Nat.lt_or_ge t i with h | h
      · exact hlt t h
      · have hti : t = i := by omega
        subst hti
        rcases hd with hmem | hle
        · exact absurd hmem (List.not_mem_nil _)
        · exact hle
  | cons j js' ih =>
    intro acc bi bs hjs hpw hd hlt h1 h2 h3
    have hjmem : j ∈ b2j s (s.getD i ' ') := hjs j (List.mem_cons_self j js')
    have hjlen : j < s.length := (b2j_mem.mp hjmem).2.1
    have hk : (if j = 0 then 0 else st (j - 1)) + 1 = selfChain s i j := by
      rw [selfChain_eq_of_mem hjmem]
      by_cases hj0 : j = 0
      · rw [if_pos hj0, if_pos hj0]
      · rw [if_neg hj0, if_neg hj0, hst]
    have hptail := (List.pairwise_cons.mp hpw).2
    have hjtail := (List.pairwise_cons.mp hpw).1
    rw [innerLoop_cons_step st s.length i j js' acc bi bi bs hjlen]
    have hacc' :
        (∀ x, x ∈ js' → (fun x => if x = j then (if j = 0 then 0 else st (j - 1)) + 1
            else acc x) x = 0) ∧
        (∀ x, x ∈ b2j s (s.getD i ' ') → x ∉ js' →
          (fun x => if x = j then (if j = 0 then 0 else st (j - 1)) + 1 else acc x) x =
            selfChain s i x) ∧
        (∀ x, x ∉ b2j s (s.getD i ' ') →
          (fun x => if x = j then (if j = 0 then 0 else st (j - 1)) + 1 else acc x) x = 0) := by
      refine ⟨?_, ?_, ?_⟩
      · intro x hx
        have hxj : x ≠ j := fun hcon => by
          subst hcon
          exact absurd (hjtail x hx) (lt_irrefl x)
        simp only [if_neg hxj]
        exact h1 x (List.mem_cons_of_mem j hx)
      · intro x hx hnx
        by_cases hxj : x = j
        · subst hxj
          simp only [if_pos rfl]
          exact hk
        · simp only [if_neg hxj]
          exact h2 x hx (fun hcon => by
            rcases List.mem_cons.mp hcon with hcc | hcc
            · exact hxj hcc
            · exact hnx hcc)
      · intro x hx
        have hxj : x ≠ j := fun hcon => by
          subst hcon
          exact hx hjmem
        simp only [if_neg hxj]
        exact h3 x hx
    rcases Nat.lt_trichotomy j i with hji | hji | hji
    · -- j < i: the candidate chain is dominated, no update happens.
      have hkle : (if j = 0 then 0 else st (j - 1)) + 1 ≤ bs := by
        rw [hk]
        exact Nat.le_trans (selfChain_le_diag_left s i j (by omega)) (hlt j hji)
      rw [if_neg (show ¬ bs < (if j = 0 then 0 else st (j - 1)) + 1 by omega)]
      exact ih _ bi bs (fun x hx => hjs x (List.mem_cons_of_mem j hx)) hptail
        (by
          rcases hd with hmem | hle
          · rcases List.mem_cons.mp hmem with hcc | hcc
            · exact absurd hcc (by omega)
            · exact Or.inl hcc
          · exact Or.inr hle)
        hlt hacc'.1 hacc'.2.1 hacc'.2.2
    · -- j = i: any update stays diagonal.
      subst hji
      by_cases hup : bs < (if j = 0 then 0 else st (j - 1)) + 1
      · rw [if_pos hup]
        obtain ⟨bi', bs', hb, ha, hle, hbound⟩ :=
          ih _ (j + 1 - ((if j = 0 then 0 else st (j - 1)) + 1))
            ((if j = 0 then 0 else st (j - 1)) + 1)
            (fun x hx => hjs x (List.mem_cons_of_mem j hx)) hptail
            (Or.inr (by rw [← hk]))
            (fun t ht => Nat.le_trans (hlt t ht) (by omega))
            hacc'.1 hacc'.2.1 hacc'.2.2
        exact ⟨bi', bs', hb, ha, by omega, hbound⟩
      · rw [if_neg hup]
        exact ih _ bi bs (fun x hx => hjs x (List.mem_cons_of_mem j hx)) hptail
          (Or.inr (by rw [← hk]; omega))
          hlt hacc'.1 hacc'.2.1 hacc'.2.2
    · -- i < j: row i was already processed; its diagonal chain bounds k.
      have hnotin : i ∉ j :: js' := by
        intro hcon
        rcases List.mem_cons.mp hcon with hcc | hcc
        · omega
        · exact absurd (hjtail i hcc) (by omega)
      have hbound_i : selfChain s i i ≤ bs := by
        rcases hd with hmem | hle
        · exact absurd hmem hnotin
        · exact hle
      have hkle : (if j = 0 then 0 else st (j - 1)) + 1 ≤ bs := by
        rw [hk]
        exact Nat.le_trans (selfChain_le_diag_right s i j (by omega)) hbound_i
      rw [if_neg (show ¬ bs < (if j = 0 then 0 else st (j - 1)) + 1 by omega)]
      exact ih _ bi bs (fun x hx => hjs x (List.mem_cons_of_mem j hx)) hptail
        (Or.inr hbound_i) hlt hacc'.1 hacc'.2.1 hacc'.2.2

/-- On a self-comparison the whole main loop keeps the best block
diagonal. -/
theorem mainLoop_self (s : List Char) :
    ∀ (cnt i0 : Nat), i0 + cnt = s.length →
    ∀ (j2l : Nat → Nat) (bi bs : Nat),
      (∀ x, j2l x = selfPrev s i0 x) →
      (∀ t, t < i0 → selfChain s t t ≤ bs) →
      ∃ bi' bs',
        mainLoop (b2j s) s 0 s.length (List.range' i0 cnt) j2l (bi, (bi, bs)) =
          (bi', (bi', bs')) := by
  intro cnt
  induction cnt with
  | zero =>
    intro i0 h0 j2l bi bs hj2l hbs
    exact ⟨bi, bs, rfl⟩
  | succ n ih =>
    intro i0 h0 j2l bi bs hj2l hbs
    rw [List.range'_succ, mainLoop]
    have hin : i0 < s.length := by omega
    have hd : i0 ∈ b2j s (s.getD i0 ' ') ∨ selfChain s i0 i0 ≤ bs := by
      by_cases hmem : i0 ∈ b2j s (s.getD i0 ' ')
      · exact Or.inl hmem
      · exact Or.inr (by rw [selfChain_eq_zero hmem]; omega)
    obtain ⟨bi1, bs1, hbest, hacc, -, hbound⟩ :=
      innerLoop_self s i0 hin j2l hj2l (b2j s (s.getD i0 ' ')) (fun _ => 0) bi bs
        (fun j hj => hj) (b2j_pairwise s _) hd hbs
        (fun x hx => rfl) (fun x hx hnx => absurd hx hnx) (fun x hx => rfl)
    rw [hbest]
    exact ih (i0 + 1) (by omega) _ bi1 bs1 (fun x => hacc x)
      (fun t ht => hbound t (by omega))

/-- The backward extension of a diagonal block on a self-comparison runs to
the start of the window. -/
theorem extendBack_self (s : List Char) : ∀ (bi bs : Nat),
    extendBack s s 0 0 bi bi bs = (0, (0, bs + bi)) := by
  intro bi
  induction bi with
  | zero => intro bs; rfl
  | succ bi' ih =>
    intro bs
    rw [extendBack, if_pos ⟨Nat.succ_pos bi', Nat.succ_pos bi', rfl, rfl⟩,
      show bi' + 1 - 1 = bi' from rfl, ih]
    simp only [Prod.mk.injEq, true_and]
    omega

/-- The forward extension of a diagonal block starting at the origin runs to
the end of the window. -/
theorem extendFwdF_self (s : List Char) :
    ∀ (fuel bs : Nat), bs + fuel = s.length →
      extendFwdF s s s.length s.length fuel 0 0 bs = (0, (0, s.length)) := by
  intro fuel
  induction fuel with
  | zero =>
    intro bs h
    rw [extendFwdF]
    simp only [Prod.mk.injEq, true_and]
    omega
  | succ f ih =>
    intro bs h
    rw [extendFwdF, if_pos ⟨by omega, by omega, rfl, rfl⟩]
    exact ih (bs + 1) (by omega)

/-- On a non-empty self-comparison, `find_longest_match` returns the whole
window. -/
theorem flm_self (s : List Char) (hs : s ≠ []) :
    find_longest_match s s 0 s.length 0 s.length = (0, (0, s.length)) := by
  have hn : 1 ≤ s.length := by
    cases s with
    | nil => exact absurd rfl hs
    | cons c cs => simp
  obtain ⟨bi1, bs1, hmain⟩ := mainLoop_self s s.length 0 (by omega)
    (fun _ => 0) 0 0 (fun x => rfl) (fun t ht => by omega)
  have hvalid : BestValid 0 s.length 0 s.length (bi1, (bi1, bs1)) := by
    rw [← hmain]
    exact mainLoop_valid (b2j s) s 0 s.length 0 s.length s.length 0 (fun _ => 0)
      (0, (0, 0)) (Nat.le_refl _) (by omega) (fun x => Or.inl rfl)
      ⟨Nat.le_refl _, Nat.le_refl _, fun _ => ⟨rfl, rfl⟩, fun h => by cases h⟩
  have hbs1 : bs1 + bi1 ≤ s.length := by
    rcases hvalid with ⟨-, -, hz, hsum⟩
    by_cases h0 : bs1 = 0
    · have := hz h0
      dsimp only at this
      omega
    · have := hsum (Nat.one_le_iff_ne_zero.mpr h0)
      dsimp only at this
      omega
  simp only [find_longest_match, junkBack_id, junkFwdF_id, Prod.mk.eta, Nat.sub_zero]
  rw [hmain]
  have hback : extendBack s s 0 0 (bi1, (bi1, bs1)).1 (bi1, (bi1, bs1)).2.1
      (bi1, (bi1, bs1)).2.2 = (0, (0, bs1 + bi1)) := extendBack_self s bi1 bs1
  rw [hback]
  exact extendFwdF_self s (s.length - (0 + (bs1 + bi1))) (bs1 + bi1) (by omega)

/-- Total matched size of a non-empty self-comparison is the full length. -/
theorem matchSumF_self (s : List Char) (hs : s ≠ []) :
    ∀ (fuel : Nat), 1 ≤ fuel →
      matchSumF s s fuel 0 s.length 0 s.length = s.length := by
  have hn : s.length ≠ 0 := fun h => hs (List.length_eq_zero.mp h)
  intro fuel hf
  match fuel, hf with
  | f + 1, _ =>
    simp only [matchSumF, flm_self s hs]
    rw [if_neg hn, if_neg (by omega : ¬ (0 < 0 ∧ 0 < 0)),
      if_neg (by omega : ¬ (0 + s.length < s.length ∧ 0 + s.length < s.length))]
    omega

/-- The similarity ratio of a non-empty string with itself is exactly 1. -/
theorem ratio_self (s : List Char) (hs : s ≠ []) : ratio s s = 1 := by
  have hn : s.length ≠ 0 := fun h => hs (List.length_eq_zero.mp h)
  have h2 : ((s.length + s.length : Nat) : ℚ) ≠ 0 := by
    exact_mod_cast (by omega : s.length + s.length ≠ 0)
  unfold ratio
  rw [matchSumF_self s hs s.length (by omega),
    if_neg (by omega : ¬ (s.length + s.length = 0)), div_eq_one_iff_eq h2]
  push_cast
  ring

/-- A string whose character list is empty is the empty string. -/
theorem string_eq_empty_of_data {s : String} (h : s.data = []) : s = "" := by
  obtain ⟨d⟩ := s
  simp only [String.data] at h
  subst h
  rfl

/-! ## General lemmas about the matching scan -/

/-- The scan returns `none` iff no remaining line reaches the threshold
(the acceptance test looks only at the similarity ratio). -/
theorem scanLines_none_iff (thr : ℚ) (u : String) (lines : List String)
    (i : Nat) (rem : List String) :
    scanLines thr u lines i rem = none ↔
      ∀ line ∈ rem, calculate_similarity u line < thr := by
  induction rem generalizing i with
  | nil => simp [scanLines]
  | cons hd tl ih =>
    by_cases h : thr ≤ calculate_similarity u hd
    · simp only [scanLines, if_pos h]
      constructor
      · intro hfalse; cases hfalse
      · intro hall
        exact absurd (hall hd (List.mem_cons_self hd tl)) (not_lt.mpr h)
    · simp only [scanLines, if_neg h, List.mem_cons]
      rw [ih (i + 1)]
      constructor
      · rintro hall line (rfl | hline)
        · exact not_le.mp h
        · exact hall line hline
      · intro hall line hline
        exact hall line (Or.inr hline)

/-- Soundness of the scan over `lines[:-1]`: a returned value is always
`ok (lines[m], lines[m+1])` for some index `m` with `m + 1 < lines.length`
whose line reaches the threshold.  The hypothesis ties `rem` to the
corresponding suffix of `lines[:-1]`. -/
theorem scanLines_some_spec (thr : ℚ) (u : String) (lines : List String) :
    ∀ (rem : List String) (i : Nat),
      (∀ m, rem.get? m = (lines.take (lines.length - 1)).get? (i + m)) →
      ∀ r, scanLines thr u lines i rem = some r →
      ∃ m l nx, lines.get? m = some l ∧ lines.get? (m + 1) = some nx ∧
        thr ≤ calculate_similarity u l ∧ r = Except.ok (l, nx) := by
  intro rem
  induction rem with
  | nil => intro i _ r hr; cases hr
  | cons hd tl ih =>
    intro i hseg r hr
    have hhd : (lines.take (lines.length - 1)).get? i = some hd := by
      have := hseg 0
      simpa using this.symm
    have hi_lt : i < lines.length - 1 := by
      rcases List.get?_eq_some.mp hhd with ⟨hlt, _⟩
      have := lines.length_take (lines.length - 1)
      omega
    have hline : lines.get? i = some hd := by
      rw [← List.get?_take (by omega : i < lines.length - 1)]
      exact hhd
    have hlt1 : i + 1 < lines.length := by omega
    obtain ⟨nx, hnx⟩ : ∃ nx, lines.get? (i + 1) = some nx :=
      ⟨lines.get ⟨i + 1, hlt1⟩, List.get?_eq_get hlt1⟩
    by_cases h : thr ≤ calculate_similarity u hd
    · refine ⟨i, hd, nx, hline, hnx, h, ?_⟩
      simp only [scanLines, if_pos h, hnx] at hr
      cases hr
      rfl
    · simp only [scanLines, if_neg h] at hr
      exact ih (i + 1) (fun m => by
        have := hseg (m + 1)
        simpa [Nat.add_assoc, Nat.add_comm 1 m, Nat.add_left_comm] using this) r hr

/-- Completeness of the scan: if some line of `rem` reaches the threshold,
the scan returns a value. -/
theorem scanLines_isSome_of_accept (thr : ℚ) (u : String) (lines : List String)
    (i : Nat) (rem : List String) (line : String) (hmem : line ∈ rem)
    (hacc : thr ≤ calculate_similarity u line) :
    scanLines thr u lines i rem ≠ none := by
  intro hnone
  exact absurd hacc (not_le.mpr ((scanLines_none_iff thr u lines i rem).mp hnone line hmem))

/-! ## General lemmas about the candidate loop -/

/-- A successful `get_lyrics` always returns a payload whose `lrc.lyric`
chain is present and truthy. -/
theorem get_lyrics_truthy (r : RemoteOutcome LyricJson) (d : LyricJson)
    (h : get_lyrics r = some d) :
    ∃ v, d.lrc = LrcField.obj (some v) ∧ lyricValTruthy v = true := by
  unfold get_lyrics getLyricsRaw at h
  cases r with
  | exn m => cases h
  | badStatus c => cases h
  | ok payload =>
    simp only at h
    by_cases ht : lyricTruthy payload
    · rw [if_pos ht] at h
      cases h
      unfold lyricTruthy at ht
      cases hd : d.lrc with
      | absent => rw [hd] at ht; cases ht
      | obj o =>
        cases o with
        | none => rw [hd] at ht; cases ht
        | some v => rw [hd] at ht; exact ⟨v, rfl, ht⟩
    · rw [if_neg ht] at h
      cases h

/-- `get_lyrics` succeeds only on a 200 response, and returns its payload
unchanged. -/
theorem get_lyrics_ok_shape (r : RemoteOutcome LyricJson) (d : LyricJson)
    (h : get_lyrics r = some d) : r = RemoteOutcome.ok d := by
  unfold get_lyrics getLyricsRaw at h
  cases r with
  | exn m => cases h
  | badStatus c => cases h
  | ok payload =>
    simp only at h
    by_cases ht : lyricTruthy payload
    · rw [if_pos ht] at h
      rw [Option.some.inj h]
    · rw [if_neg ht] at h
      cases h

/-- Under a well-shaped lyric response, a successful `get_lyrics` makes the
engine's `["lrc"]["lyric"]` subscripts safe and yields a *string* value. -/
theorem lrcLyric_str_of_wf (r : RemoteOutcome LyricJson) (d : LyricJson)
    (h : get_lyrics r = some d) (hwf : lyricRespWF r) :
    ∃ s, lrcLyric d = Except.ok (LyricVal.str s) := by
  rcases get_lyrics_truthy r d h with ⟨v, hl, hv⟩
  cases v with
  | str s => exact ⟨s, by simp [lrcLyric, hl]⟩
  | mal t =>
    exfalso
    rw [get_lyrics_ok_shape r d h] at hwf
    obtain ⟨lrc⟩ := d
    have hl' : lrc = LrcField.obj (some (LyricVal.mal t)) := hl
    subst hl'
    have ht : t = false := hwf
    rw [show lyricValTruthy (LyricVal.mal t) = t from rfl, ht] at hv
    cases hv

/-- Under a well-shaped search response, `search_songs` yields either a
benign falsy non-list or a list of JSON objects. -/
theorem search_songs_wf (r : RemoteOutcome SearchJson) (h : searchRespWF r) :
    search_songs r = SongsField.mal false ∨
    ∃ items, search_songs r = SongsField.list items ∧
      ∀ it ∈ items, it ≠ SongItem.mal := by
  cases r with
  | exn m => exact Or.inr ⟨[], rfl, by simp⟩
  | badStatus c => exact Or.inr ⟨[], rfl, by simp⟩
  | ok d =>
    match d with
    | none => exact Or.inr ⟨[], rfl, by simp⟩
    | some none => exact Or.inr ⟨[], rfl, by simp⟩
    | some (some (SongsField.list items)) => exact Or.inr ⟨items, rfl, h⟩
    | some (some (SongsField.mal t)) =>
      have ht : t = false := h
      subst ht
      exact Or.inl rfl

/-- Under well-shaped lyric responses, the candidate loop never raises on a
list of JSON-object candidates: its first component is always `ok`. -/
theorem tryCandidates_ok (thr : ℚ) (u : String) (env : Env)
    (hlyr : ∀ sid, lyricRespWF (env.lyricResp sid)) :
    ∀ songs : List SongItem, (∀ it ∈ songs, it ≠ SongItem.mal) →
      ∃ ro, (tryCandidates thr u env songs).1 = Except.ok ro := by
  intro songs
  induction songs with
  | nil => exact fun _ => ⟨none, rfl⟩
  | cons item rest ih =>
    intro hobj
    rcases ih (fun it hit => hobj it (List.mem_cons_of_mem _ hit)) with ⟨ro, hro⟩
    cases item with
    | mal => exact absurd rfl (hobj SongItem.mal (List.mem_cons_self _ _))
    | obj song =>
      cases hid : song.id with
      | none => exact ⟨ro, by simp [tryCandidates, hid, hro]⟩
      | some sid =>
        by_cases hz : sid = 0
        · exact ⟨ro, by simp [tryCandidates, hid, hz, hro]⟩
        · cases hget : get_lyrics (env.lyricResp sid) with
          | none => exact ⟨ro, by simp [tryCandidates, hid, hz, hget, hro]⟩
          | some data =>
            rcases lrcLyric_str_of_wf _ _ hget (hlyr sid) with ⟨txt, htxt⟩
            by_cases hshort : (parse_lyrics txt).length < 2
            · exact ⟨ro, by simp [tryCandidates, hid, hz, hget, htxt,
                parse_lyricsVal, hshort, hro]⟩
            · cases hscan : scanFull thr u (parse_lyrics txt) with
              | none => exact ⟨ro, by simp [tryCandidates, hid, hz, hget, htxt,
                  parse_lyricsVal, hshort, hscan, hro]⟩
              | some r =>
                rcases scanLines_some_spec thr u (parse_lyrics txt)
                    (List.take ((parse_lyrics txt).length - 1) (parse_lyrics txt)) 0
                    (fun m => by simp) r hscan with ⟨m, l, nx, _, _, _, hrok⟩
                subst hrok
                exact ⟨some (song.name.getD "未知歌曲", l, nx, sid),
                  by simp [tryCandidates, hid, hz, hget, htxt,
                    parse_lyricsVal, hshort, hscan]⟩

/-- When the candidate loop produces a result, that result comes from a
candidate whose fetch succeeded with a *string* lyric parsing to at least 2
lines, and whose scan accepted an adjacent pair of lines (no well-shapedness
assumption needed: malformed values yield an error or a skip, never a
result). -/
theorem tryCandidates_found (thr : ℚ) (u : String) (env : Env) :
    ∀ (songs : List SongItem) (n l nx : String) (sid : Int),
      (tryCandidates thr u env songs).1 = Except.ok (some (n, l, nx, sid)) →
      ∃ data txt, get_lyrics (env.lyricResp sid) = some data ∧
        lrcLyric data = Except.ok (LyricVal.str txt) ∧
        2 ≤ (parse_lyrics txt).length ∧
        scanFull thr u (parse_lyrics txt) = some (Except.ok (l, nx)) := by
  intro songs
  induction songs with
  | nil => intro n l nx sid h; cases h
  | cons item rest ih =>
    intro n l nx sid h
    cases item with
    | mal => cases h
    | obj song =>
      cases hid : song.id with
      | none => exact ih n l nx sid (by simpa [tryCandidates, hid] using h)
      | some sid' =>
        by_cases hz : sid' = 0
        · exact ih n l nx sid (by simpa [tryCandidates, hid, hz] using h)
        · cases hget : get_lyrics (env.lyricResp sid') with
          | none => exact ih n l nx sid (by simpa [tryCandidates, hid, hz, hget] using h)
          | some data =>
            cases htxt : lrcLyric data with
            | error e => simp [tryCandidates, hid, hz, hget, htxt] at h
            | ok v =>
              cases v with
              | mal t =>
                cases t with
                | false =>
                  exact ih n l nx sid
                    (by simpa [tryCandidates, hid, hz, hget, htxt, parse_lyricsVal] using h)
                | true =>
                  simp [tryCandidates, hid, hz, hget, htxt, parse_lyricsVal] at h
              | str txt =>
                by_cases hshort : (parse_lyrics txt).length < 2
                · exact ih n l nx sid
                    (by simpa [tryCandidates, hid, hz, hget, htxt,
                      parse_lyricsVal, hshort] using h)
                · cases hscan : scanFull thr u (parse_lyrics txt) with
                  | none =>
                    exact ih n l nx sid
                      (by simpa [tryCandidates, hid, hz, hget, htxt,
                        parse_lyricsVal, hshort, hscan] using h)
                  | some r =>
                    cases r with
                    | error e =>
                      simp [tryCandidates, hid, hz, hget, htxt,
                        parse_lyricsVal, hshort, hscan] at h
                    | ok pr =>
                      obtain ⟨l', nx'⟩ := pr
                      have h' : (Except.ok (some (song.name.getD "未知歌曲", l', nx', sid')) :
                          Except String (Option MatchRes)) = Except.ok (some (n, l, nx, sid)) := by
                        simpa [tryCandidates, hid, hz, hget, htxt,
                          parse_lyricsVal, hshort, hscan] using h
                      obtain ⟨heq1, heq2, heq3, heq4⟩ :
                          song.name.getD "未知歌曲" = n ∧ l' = l ∧ nx' = nx ∧ sid' = sid := by
                        simpa using h'
                      subst heq2; subst heq3; subst heq4
                      exact ⟨data, txt, hget, htxt, by omega, hscan⟩

/-! ## Claim C1 -/

/-- The spec-modelled cache of C1's scenario: it contains a song whose lines
include the query as a non-last line. -/
def cacheWithQuery : List (List String) := [["天青色等烟雨", "而我在等你"]]

/-- **C1** (counterexample).  The claim states that when the cache contains
the query as a non-last line, the engine performs no remote call during the
resolution.  The code defines no cache: even in exactly that scenario the
resolution's remote-call trace is non-empty (a remote search is issued). -/
theorem c1_counterexample :
    specCacheHasQueryNonLast cacheWithQuery "天青色等烟雨" = true ∧
    (find_matching_lyric (6/10) "天青色等烟雨" envNoSongs).2 ≠ [] := by
  refine ⟨rfl, by with_unfolding_all decide⟩

/-- **C1** (amended).  Every resolution performs a remote search as its very
first remote operation; the engine defines no cache, so no cached data can
short-circuit the remote call. -/
theorem c1_amended (thr : ℚ) (u : String) (env : Env) :
    ∃ t, (find_matching_lyric thr u env).2 = RemoteCall.search u :: t := by
  simp only [find_matching_lyric]
  by_cases h : songsTruthy (search_songs env.searchResp) = true
  · rw [if_pos h]
    cases hs : search_songs env.searchResp with
    | list items => exact ⟨_, rfl⟩
    | mal t => exact ⟨[], rfl⟩
  · rw [if_neg h]
    exact ⟨[], rfl⟩

/-! ## Claim C10 -/

/-- **C10**.  A candidate whose `id` field is missing or falsy (including
the integer 0) is skipped without a lyric fetch: the engine's result and its
fetch trace on `song :: rest` coincide with those on `rest`. -/
theorem c10_skip_falsy_id (thr : ℚ) (u : String) (env : Env) (song : Song)
    (rest : List SongItem) (h : song.id = none ∨ song.id = some 0) :
    tryCandidates thr u env (SongItem.obj song :: rest) =
      tryCandidates thr u env rest := by
  rcases h with h | h <;> simp [tryCandidates, h]

/-- **C10** (witness). -/
theorem c10_witness :
    tryCandidates 1 "q" envNoSongs [SongItem.obj { id := some 0, name := none }] =
      tryCandidates 1 "q" envNoSongs [] :=
  c10_skip_falsy_id 1 "q" envNoSongs _ _ (Or.inr rfl)

/-! ## Claim C8 -/

/-- **C8** (counterexample).  The claim states that normalization removes
every character that is neither alphanumeric nor whitespace, so that a
punctuation-only string normalizes to the empty string.  The code only
lowercases and deletes U+0020: on the punctuation-only string `"!!!"` it
returns `"!!!"`, not `""`. -/
theorem c8_counterexample :
    (∀ c ∈ ("!!!" : String).data, c.isAlphanum = false ∧ isPySpace c = false) ∧
    pyClean "!!!" = "!!!" ∧ pyClean "!!!" ≠ "" := by
  refine ⟨by decide, by decide, by decide⟩

/-- **C8** (amended).  The normalization used before comparison lowercases
and removes space (U+0020) characters, and nothing else: its output never
contains a space, and any string without spaces and without upper-case
letters — punctuation-only strings included — is returned unchanged. -/
theorem c8_amended :
    (∀ s : String, ∀ c ∈ (pyClean s).data, c ≠ ' ') ∧
    (∀ s : String, (∀ c ∈ s.data, pyLower c = c ∧ c ≠ ' ') → pyClean s = s) := by
  constructor
  · intro s c hc
    simp only [pyClean, List.mem_filter, decide_eq_true_eq] at hc
    exact hc.2
  · intro s h
    obtain ⟨d⟩ := s
    show String.mk _ = String.mk d
    congr 1
    rw [List.map_congr_left (fun c hc => (h c hc).1), List.map_id',
      List.filter_eq_self.mpr (fun c hc => by simpa using (h c hc).2)]

/-- **C8** (witness). -/
theorem c8_witness : pyClean "!!!" = "!!!" :=
  c8_amended.2 "!!!" (by decide)

/-! ## Claim C9 (counterexample; the amended theorem appears later, after
the general facts about `ratio`) -/

/-- **C9** (counterexample).  The claim states `score(a, a) = 1.0` for every
non-empty `a`.  For the non-empty string `" "` the code's cleaning empties
both arguments, and `calculate_similarity " " " " = 0`. -/
theorem c9_counterexample :
    (" " : String) ≠ "" ∧ calculate_similarity " " " " = 0 ∧
    calculate_similarity " " " " ≠ 1 := by
  refine ⟨by decide, by with_unfolding_all decide, by with_unfolding_all decide⟩

/-- **C9** (amended).  `score(a, a) = 1` for every string whose *cleaned*
form (lowercased, U+0020 removed) is non-empty — the counterexample `" "`
forces this extra condition; `score(a, "") = 0` for every `a`; and the score
always lies in `[0, 1]`. -/
theorem c9_amended :
    (∀ a : String, pyClean a ≠ "" → calculate_similarity a a = 1) ∧
    (∀ a : String, calculate_similarity a "" = 0) ∧
    (∀ a b : String, 0 ≤ calculate_similarity a b ∧ calculate_similarity a b ≤ 1) := by
  refine ⟨?_, ?_, ?_⟩
  · intro a ha
    have hane : a ≠ "" := by
      intro h
      subst h
      exact ha rfl
    unfold calculate_similarity
    rw [if_neg (by simp [hane]), if_neg (by simp [ha])]
    apply ratio_self
    intro hdata
    exact ha (string_eq_empty_of_data hdata)
  · intro a
    unfold calculate_similarity
    rw [if_pos (Or.inr rfl)]
  · intro a b
    simp only [calculate_similarity]
    split_ifs with h1 h2
    · norm_num
    · norm_num
    · exact ratio_mem_unit _ _

/-- **C9** (witness). -/
theorem c9_witness : pyClean "ab" ≠ "" ∧ calculate_similarity "ab" "ab" = 1 :=
  ⟨by decide, c9_amended.1 "ab" (by decide)⟩

/-! ## Claim C2 (counterexample; the amended theorem appears later) -/

/-- **C2** (counterexample).  The claim states that a match is declared
whenever one normalized string contains the other, regardless of the ratio.
For query `"a"` and candidate line `"abcde"` the normalized query is a
substring of the normalized candidate, yet the engine (whose only acceptance
test is `ratio ≥ threshold`, here `1/3 < 6/10`) declares no match. -/
theorem c2_counterexample :
    hasSub (specNormalize "a").data (specNormalize "abcde").data = true ∧
    calculate_similarity "a" "abcde" < 6/10 ∧
    (find_matching_lyric (6/10) "a" envC2).1 = Except.ok none := by
  refine ⟨by decide, by with_unfolding_all decide, by with_unfolding_all decide⟩

/-- **C2** (amended).  Within a candidate's parsed lines, the engine
declares a match if and only if some non-last line has similarity ratio at
least the threshold: substring containment of the normalized strings plays
no role in the acceptance test. -/
theorem c2_amended (thr : ℚ) (u : String) (lines : List String) :
    scanFull thr u lines = none ↔
      ∀ line ∈ lines.take (lines.length - 1), calculate_similarity u line < thr :=
  scanLines_none_iff thr u lines 0 (lines.take (lines.length - 1))

/-- **C2** (witness). -/
theorem c2_witness :
    scanFull (6/10) "a" ["abcde", "next"] = none :=
  (c2_amended (6/10) "a" ["abcde", "next"]).mpr (by
    intro line hline
    have : line = "abcde" := by simpa using hline
    subst this
    with_unfolding_all decide)

/-! ## Claim C3 -/

/-- **C3** (counterexample).  The claim states the engine stops at the
first candidate whose fetched lyric yields at least 2 parsed lines.  In
`envC3` the first candidate's lyric parses to exactly 2 lines, yet the
engine goes on and returns the second candidate's match — its fetch trace
shows both lyric fetches. -/
theorem c3_counterexample :
    (parse_lyrics "[00:01.00]aaaa\n[00:02.00]bbbb").length = 2 ∧
    find_matching_lyric (6/10) "hello" envC3 =
      (Except.ok (some ("song2", "hello", "world", 2)),
        [RemoteCall.search "hello", RemoteCall.fetch 1, RemoteCall.fetch 2]) := by
  refine ⟨by decide, by with_unfolding_all decide⟩

/-- **C3** (amended).  Candidates are tried in provider-returned order; a
candidate whose lyric fetch fails is skipped (with its fetch recorded); a
candidate whose lyric yields at least 2 parsed lines but no accepted line is
*also* skipped; the engine stops at the first candidate yielding at least 2
parsed lines *and* an accepted non-last line, performing no further
fetches. -/
theorem c3_amended :
    (∀ (thr : ℚ) (u : String) (env : Env) (song : Song) (sid : Int)
        (rest : List SongItem),
      song.id = some sid → sid ≠ 0 → get_lyrics (env.lyricResp sid) = none →
      tryCandidates thr u env (SongItem.obj song :: rest) =
        ((tryCandidates thr u env rest).1, sid :: (tryCandidates thr u env rest).2)) ∧
    (∀ (thr : ℚ) (u : String) (env : Env) (song : Song) (sid : Int)
        (data : LyricJson) (txt : String) (rest : List SongItem),
      song.id = some sid → sid ≠ 0 → get_lyrics (env.lyricResp sid) = some data →
      lrcLyric data = Except.ok (LyricVal.str txt) → ¬ (parse_lyrics txt).length < 2 →
      scanFull thr u (parse_lyrics txt) = none →
      tryCandidates thr u env (SongItem.obj song :: rest) =
        ((tryCandidates thr u env rest).1, sid :: (tryCandidates thr u env rest).2)) ∧
    (∀ (thr : ℚ) (u : String) (env : Env) (song : Song) (sid : Int)
        (data : LyricJson) (txt : String) (l nx : String) (rest : List SongItem),
      song.id = some sid → sid ≠ 0 → get_lyrics (env.lyricResp sid) = some data →
      lrcLyric data = Except.ok (LyricVal.str txt) → ¬ (parse_lyrics txt).length < 2 →
      scanFull thr u (parse_lyrics txt) = some (Except.ok (l, nx)) →
      tryCandidates thr u env (SongItem.obj song :: rest) =
        (Except.ok (some (song.name.getD "未知歌曲", l, nx, sid)), [sid])) := by
  refine ⟨?_, ?_, ?_⟩
  · intro thr u env song sid rest hid hz hget
    simp [tryCandidates, hid, hz, hget]
  · intro thr u env song sid data txt rest hid hz hget htxt hshort hscan
    simp [tryCandidates, hid, hz, hget, htxt, parse_lyricsVal, hshort, hscan]
  · intro thr u env song sid data txt l nx rest hid hz hget htxt hshort hscan
    simp [tryCandidates, hid, hz, hget, htxt, parse_lyricsVal, hshort, hscan]

/-- **C3** (witness). -/
theorem c3_witness :
    tryCandidates (6/10) "hello" envC3 [SongItem.obj { id := some 2, name := some "song2" }] =
      (Except.ok (some ("song2", "hello", "world", 2)), [2]) :=
  c3_amended.2.2 (6/10) "hello" envC3 { id := some 2, name := some "song2" } 2
    ⟨LrcField.obj (some (LyricVal.str "[00:01.00]hello\n[00:02.00]world"))⟩
    "[00:01.00]hello\n[00:02.00]world" "hello" "world" []
    rfl (by decide) (by with_unfolding_all decide) rfl (by decide)
    (by with_unfolding_all decide)

/-! ## Claim C4 -/

/-- **C4** (counterexample).  The claim states that remote failures *never*
propagate out of the resolution.  Exceptions, non-200 statuses and falsy
payloads indeed degrade, but a 200 response whose JSON has the wrong shape
does not: `{"lrc": {"lyric": 123}}` passes `get_lyrics`' truthiness check
and `parse_lyrics(123)` raises an uncaught `AttributeError`; and
`{"result": {"songs": 42}}` passes `if not songs` and `for song in songs`
raises an uncaught `TypeError` — both escaping `find_matching_lyric`. -/
theorem c4_counterexample :
    find_matching_lyric (6/10) "q" envC4Lyric =
      (Except.error "AttributeError: split on non-string lyric",
        [RemoteCall.search "q", RemoteCall.fetch 9]) ∧
    find_matching_lyric (6/10) "q" envC4Songs =
      (Except.error "TypeError: songs value is not a list",
        [RemoteCall.search "q"]) := by
  exact ⟨by with_unfolding_all decide, by with_unfolding_all decide⟩

/-- **C4** (amended).  Failures *of the remote steps themselves* degrade
gracefully: an exception inside `search_songs`' request (network error,
timeout, JSON decode failure, non-dict `"result"`) degrades to "no songs";
one inside `get_lyrics` degrades to "no lyric"; and over every environment
whose 200 payloads are well-shaped (a truthy `"songs"` value is a list of
objects, a truthy `"lyric"` value is a string) the engine returns an `ok`
outcome.  Ill-shaped 200 payloads, by contrast, raise out of the engine
(see the counterexample). -/
theorem c4_amended :
    (∀ (r : RemoteOutcome SearchJson) (e : String),
      searchSongsRaw r = Except.error e → search_songs r = SongsField.list []) ∧
    (∀ (r : RemoteOutcome LyricJson) (e : String),
      getLyricsRaw r = Except.error e → get_lyrics r = none) ∧
    (∀ (thr : ℚ) (u : String) (env : Env),
      searchRespWF env.searchResp →
      (∀ sid, lyricRespWF (env.lyricResp sid)) →
      ∃ ro, (find_matching_lyric thr u env).1 = Except.ok ro) := by
  refine ⟨?_, ?_, ?_⟩
  · intro r e h
    unfold search_songs
    rw [h]
  · intro r e h
    unfold get_lyrics
    rw [h]
  · intro thr u env hs hl
    rcases search_songs_wf env.searchResp hs with hmal | ⟨items, hitems, hwf⟩
    · exact ⟨none, by simp [find_matching_lyric, hmal, songsTruthy]⟩
    · by_cases ht : songsTruthy (SongsField.list items) = true
      · rcases tryCandidates_ok thr u env hl items hwf with ⟨ro, hro⟩
        exact ⟨ro, by simp [find_matching_lyric, hitems, ht, hro]⟩
      · exact ⟨none, by simp [find_matching_lyric, hitems, ht]⟩

/-- **C4** (witness). -/
theorem c4_witness :
    search_songs (RemoteOutcome.exn "timeout") = SongsField.list [] ∧
    get_lyrics (RemoteOutcome.exn "timeout") = none ∧
    ∃ ro, (find_matching_lyric (6/10) "q" envNoSongs).1 = Except.ok ro :=
  ⟨c4_amended.1 (RemoteOutcome.exn "timeout") "timeout" rfl,
   c4_amended.2.1 (RemoteOutcome.exn "timeout") "timeout" rfl,
   c4_amended.2.2 (6/10) "q" envNoSongs (by simp [envNoSongs, searchRespWF])
     (fun _ => True.intro)⟩

/-! ## Claim C5 -/

/-- **C5**.  A candidate whose lyric parses to fewer than 2 lines is
unusable: when it is the only candidate the engine returns the no-match
outcome.  And whenever the engine does return a result, the matched line
sits strictly before the last parsed line: the next line is read at a valid
index (`lines.get? (m+1)` succeeds, so no read past the end occurs). -/
theorem c5_short_lyric_safe :
    (∀ (thr : ℚ) (u : String) (env : Env) (song : Song) (sid : Int)
        (data : LyricJson) (txt : String),
      song.id = some sid → sid ≠ 0 → get_lyrics (env.lyricResp sid) = some data →
      lrcLyric data = Except.ok (LyricVal.str txt) → (parse_lyrics txt).length < 2 →
      tryCandidates thr u env [SongItem.obj song] = (Except.ok none, [sid])) ∧
    (∀ (thr : ℚ) (u : String) (env : Env) (n l nx : String) (sid : Int),
      (find_matching_lyric thr u env).1 = Except.ok (some (n, l, nx, sid)) →
      ∃ data txt m, get_lyrics (env.lyricResp sid) = some data ∧
        lrcLyric data = Except.ok (LyricVal.str txt) ∧
        (parse_lyrics txt).get? m = some l ∧
        (parse_lyrics txt).get? (m + 1) = some nx ∧
        m + 1 < (parse_lyrics txt).length ∧
        thr ≤ calculate_similarity u l) := by
  constructor
  · intro thr u env song sid data txt hid hz hget htxt hshort
    simp [tryCandidates, hid, hz, hget, htxt, parse_lyricsVal, hshort]
  · intro thr u env n l nx sid h
    have h' : ∃ items, search_songs env.searchResp = SongsField.list items ∧
        (tryCandidates thr u env items).1 = Except.ok (some (n, l, nx, sid)) := by
      simp only [find_matching_lyric] at h
      by_cases ht : songsTruthy (search_songs env.searchResp) = true
      · rw [if_pos ht] at h
        cases hs : search_songs env.searchResp with
        | list items =>
          rw [hs] at h
          exact ⟨items, rfl, h⟩
        | mal t =>
          rw [hs] at h
          cases h
      · rw [if_neg ht] at h
        cases h
    rcases h' with ⟨items, _, h'⟩
    rcases tryCandidates_found thr u env items n l nx sid h' with
      ⟨data, txt, hget, htxt, hlen, hscan⟩
    rcases scanLines_some_spec thr u (parse_lyrics txt)
        (List.take ((parse_lyrics txt).length - 1) (parse_lyrics txt)) 0
        (fun m => by simp) _ hscan with ⟨m, l', nx', hml, hmn, hacc, hok⟩
    obtain ⟨rfl, rfl⟩ : l = l' ∧ nx = nx' := by
      simpa using hok
    refine ⟨data, txt, m, hget, htxt, hml, hmn, ?_, hacc⟩
    exact (List.get?_eq_some.mp hmn).1

/-- **C5** (witness): in `envC5` the only candidate's lyric parses to one
line; the engine skips it and returns the no-match outcome. -/
theorem c5_witness :
    tryCandidates (6/10) "hello" envC5 [SongItem.obj { id := some 7, name := some "only" }] =
      (Except.ok none, [7]) :=
  c5_short_lyric_safe.1 (6/10) "hello" envC5 { id := some 7, name := some "only" } 7
    ⟨LrcField.obj (some (LyricVal.str "[00:01.00]lonely line"))⟩ "[00:01.00]lonely line"
    rfl (by decide) (by with_unfolding_all decide) rfl (by decide)

/-! ## Claims C6 and C7 (counterexamples; amended theorems appear later) -/

/-- **C6** (counterexample).  The claim counts only non-empty *non-metadata*
lines.  On a text consisting of one credit line and one lyric line the
number of non-empty non-metadata lines after stripping is 1, but the parser
(which performs no metadata filtering) returns 2 lines. -/
theorem c6_counterexample :
    specNonMetaCount "[00:38.71]作词 : 周杰伦\n[00:39.00]天青色等烟雨" = 1 ∧
    (parse_lyrics "[00:38.71]作词 : 周杰伦\n[00:39.00]天青色等烟雨").length = 2 := by
  refine ⟨by decide, by decide⟩

/-- **C6** (amended).  Dropping the "non-metadata" qualifier: for every raw
LRC text, `parse` returns exactly the lines whose cleaned text (all time
tags stripped, surrounding whitespace removed) is non-empty, in the original
relative order, with no deduplication and no empty entries; and on a line
made of any number of well-formed `[mm:ss.xx]` / `[mm:ss:xx]` tags followed
by bracket-free text, *every* tag is stripped, leaving just the stripped
text. -/
theorem c6_amended :
    (∀ t : String, parse_lyrics t =
      (((splitNl t.data).map cleanLine).filter (fun l => decide (l ≠ []))).map String.mk) ∧
    (∀ t : String, ∀ s ∈ parse_lyrics t, s ≠ "") ∧
    (∀ (tags : List TimeTag) (txt : List Char), (∀ tg ∈ tags, tg.wf) → '[' ∉ txt →
      cleanLine ((tags.map TimeTag.render).join ++ txt) = pyStrip txt) := by
  refine ⟨?_, ?_, ?_⟩
  · intro t
    by_cases ht : t = ""
    · subst ht
      rfl
    · rw [parse_lyrics, if_neg ht, collectLines_eq]
  · intro t s hs
    have hchar : ∀ l ∈ (((splitNl t.data).map cleanLine).filter
        (fun l => decide (l ≠ []))), l ≠ [] := by
      intro l hl
      have := (List.mem_filter.mp hl).2
      simpa using this
    by_cases ht : t = ""
    · subst ht
      cases hs
    · rw [parse_lyrics, if_neg ht, collectLines_eq] at hs
      rcases List.mem_map.mp hs with ⟨l, hl, rfl⟩
      intro hcon
      exact hchar l hl (by
        have : (String.mk l).data = ("" : String).data := by rw [hcon]
        simpa using this)
  · intro tags txt hwf htxt
    rw [cleanLine, subTags_renders tags txt hwf htxt]

/-- **C6** (witness): tag stripping on a doubly-tagged line. -/
theorem c6_witness :
    cleanLine "[00:01.00][00:02:50]天青色等烟雨 ".data = "天青色等烟雨".data := by
  have h := c6_amended.2.2
    [TimeTag.dotted '0' '0' '0' '1' '0' '0', TimeTag.coloned '0' '0' '0' '2' '5' '0']
    "天青色等烟雨 ".data (by
      intro tg htg
      simp only [List.mem_cons, List.not_mem_nil, or_false] at htg
      rcases htg with rfl | rfl <;> exact ⟨rfl, rfl, rfl, rfl, rfl, rfl⟩)
    (by decide)
  have heq : "[00:01.00][00:02:50]天青色等烟雨 ".data =
      (([TimeTag.dotted '0' '0' '0' '1' '0' '0',
         TimeTag.coloned '0' '0' '0' '2' '5' '0'].map TimeTag.render).join ++
        "天青色等烟雨 ".data) := by decide
  rw [heq, h]
  decide

/-- **C7** (amended).  No metadata filtering is applied: *every* line whose
cleaned text is non-empty — author/composer/arranger/producer credit lines
included — appears in the parser's output. -/
theorem c7_amended (t : String) (l : List Char) (hl : l ∈ splitNl t.data)
    (hne : cleanLine l ≠ []) : String.mk (cleanLine l) ∈ parse_lyrics t := by
  by_cases ht : t = ""
  · subst ht
    have : l = [] := by simpa [splitNl] using hl
    subst this
    exact absurd rfl hne
  · rw [parse_lyrics, if_neg ht, collectLines_eq]
    refine List.mem_map.mpr ⟨cleanLine l, List.mem_filter.mpr ⟨List.mem_map.mpr ⟨l, hl, rfl⟩, ?_⟩, rfl⟩
    simpa using hne

/-- **C7** (witness): a credit line with non-empty cleaned text is kept. -/
theorem c7_witness :
    ("作词 : 周杰伦" : String) ∈
      parse_lyrics "[00:38.71]作词 : 周杰伦\n[00:39.00]天青色等烟雨" := by
  have h := c7_amended "[00:38.71]作词 : 周杰伦\n[00:39.00]天青色等烟雨"
    "[00:38.71]作词 : 周杰伦".data (by decide) (by decide)
  have he : String.mk (cleanLine "[00:38.71]作词 : 周杰伦".data) = "作词 : 周杰伦" := by decide
  rwa [he] at h

/-- **C7** (counterexample).  The claim states that credit lines matching
the known metadata prefixes are dropped.  The parser keeps them: a lone
author credit line survives parsing. -/
theorem c7_counterexample :
    specIsCreditLine (cleanLine "[00:38.71]作词 : 周杰伦".data) = true ∧
    parse_lyrics "[00:38.71]作词 : 周杰伦" = ["作词 : 周杰伦"] := by
  refine ⟨by decide, by decide⟩

end LyricsPlugin
